import Mathlib

/-!
Verification of the claude-llm-call repository: a shallow embedding of the
session/step store (src/llm/session.py), the dispatch engine
(src/llm/caller.py, src/llm/api.py), the stdin parser (src/llm/parse.py)
and the probe/crossref command cores (src/cli.py), together with theorems
settling the specification claims.

Strings are modelled as `List Char`; Python dictionaries as association
lists; the filesystem-backed session store as an explicit state structure;
the HTTP transport as an oracle parameter.
-/

namespace LlmCall

/-- Python strings are modelled as lists of characters. -/
abbrev Str := List Char

/-! ## Basic string utilities -/

/-- `startsWith pat s` decides whether `pat` is an initial segment of `s`. -/
def startsWith : Str → Str → Bool
  | [], _ => true
  | _ :: _, [] => false
  | p :: ps, c :: cs => p = c && startsWith ps cs

theorem startsWith_iff (pat s : Str) : startsWith pat s = true ↔ ∃ t, s = pat ++ t := by
  induction pat generalizing s with
  | nil => simp [startsWith]
  | cons p ps ih =>
    cases s with
    | nil => simp [startsWith]
    | cons c cs =>
      simp only [startsWith, Bool.and_eq_true, decide_eq_true_eq, ih]
      constructor
      · rintro ⟨rfl, t, rfl⟩
        exact ⟨t, rfl⟩
      · rintro ⟨t, h⟩
        injection h with h1 h2
        exact ⟨h1.symm, t, h2⟩

theorem startsWith_append (pat t : Str) : startsWith pat (pat ++ t) = true :=
  (startsWith_iff pat _).2 ⟨t, rfl⟩

theorem drop_len_append (a b : List Char) : (a ++ b).drop a.length = b := by
  induction a with
  | nil => rfl
  | cons x xs ih => simp [ih]

theorem take_len_append (a b : List Char) : (a ++ b).take a.length = a := by
  induction a with
  | nil => rfl
  | cons x xs ih => simp [ih]

/-- Find the first occurrence of `pat` in `s`, returning the (shortest)
prefix before the occurrence and the suffix after it.  This models Python's
`s.split(pat, 1)` (when it succeeds) and `pat in s`. -/
def splitOnceSub (pat : Str) : Str → Option (Str × Str)
  | [] => if startsWith pat [] then some ([], []) else none
  | c :: cs =>
    if startsWith pat (c :: cs) then some ([], (c :: cs).drop pat.length)
    else (splitOnceSub pat cs).map (fun ab => (c :: ab.1, ab.2))

/-- `pat in s` in Python. -/
def containsSub (pat s : Str) : Bool := (splitOnceSub pat s).isSome

/-- `pat` occurs as a contiguous substring of `s`. -/
def Occurs (pat s : Str) : Prop := ∃ a b, s = a ++ pat ++ b

theorem splitOnceSub_eq_some (pat s a b : Str) :
    splitOnceSub pat s = some (a, b) → s = a ++ pat ++ b := by
  induction s generalizing a b with
  | nil =>
    intro h
    simp only [splitOnceSub] at h
    split at h
    · next hp =>
      rcases (startsWith_iff pat []).1 hp with ⟨t, ht⟩
      have hpat : pat = [] := (List.append_eq_nil.1 ht.symm).1
      injection h with h1
      injection h1 with ha hb
      subst ha; subst hb
      simp [hpat]
    · exact absurd h (by simp)
  | cons c cs ih =>
    intro h
    simp only [splitOnceSub] at h
    split at h
    · next hp =>
      rcases (startsWith_iff pat _).1 hp with ⟨t, ht⟩
      injection h with h1
      injection h1 with ha hb
      subst ha
      rw [ht, drop_len_append] at hb
      subst hb
      simpa using ht
    · next hp =>
      rw [Option.map_eq_some'] at h
      rcases h with ⟨⟨a', b'⟩, hrec, heq⟩
      simp only at heq
      injection heq with ha hb
      subst ha; subst hb
      have := ih a' b' hrec
      simp [this]

theorem splitOnceSub_none_iff (pat s : Str) :
    splitOnceSub pat s = none ↔ ¬ Occurs pat s := by
  induction s with
  | nil =>
    by_cases hp : startsWith pat [] = true
    · rcases (startsWith_iff pat []).1 hp with ⟨t, ht⟩
      have hpat : pat = [] := (List.append_eq_nil.1 ht.symm).1
      constructor
      · intro h; simp [splitOnceSub, hp] at h
      · intro h; exact absurd ⟨[], [], by simp [hpat]⟩ h
    · have h1 : splitOnceSub pat [] = none := by simp [splitOnceSub, hp]
      rw [h1]
      simp only [true_iff]
      rintro ⟨a, b, hab⟩
      have hpat : pat = [] := (List.append_eq_nil.1 (List.append_eq_nil.1 hab.symm).1).2
      rw [startsWith_iff] at hp
      exact hp ⟨[], by simp [hpat]⟩
  | cons c cs ih =>
    by_cases hp : startsWith pat (c :: cs) = true
    · rcases (startsWith_iff pat _).1 hp with ⟨t, ht⟩
      constructor
      · intro h; simp [splitOnceSub, hp] at h
      · intro h; exact absurd ⟨[], t, by simpa using ht⟩ h
    · have h1 : splitOnceSub pat (c :: cs) =
          (splitOnceSub pat cs).map (fun ab => (c :: ab.1, ab.2)) := by
        simp [splitOnceSub, hp]
      rw [h1, Option.map_eq_none', ih]
      constructor
      · rintro h ⟨a, b, hab⟩
        cases a with
        | nil =>
          rw [startsWith_iff] at hp
          exact hp ⟨b, by simpa using hab⟩
        | cons x xs =>
          injection hab with h1 h2
          exact h ⟨xs, b, h2⟩
      · rintro h ⟨a, b, hab⟩
        exact h ⟨c :: a, b, by simp [hab]⟩

theorem not_occurs_of_splitOnceSub_none {pat s : Str} (h : splitOnceSub pat s = none) :
    ¬ Occurs pat s := (splitOnceSub_none_iff pat s).1 h

theorem splitOnceSub_at_head (pat t : Str) (hp : pat ≠ []) :
    splitOnceSub pat (pat ++ t) = some ([], t) := by
  cases hpt : pat ++ t with
  | nil => exact absurd (List.append_eq_nil.1 hpt).1 hp
  | cons c cs =>
    have hsw : startsWith pat (pat ++ t) = true := startsWith_append pat t
    rw [hpt] at hsw
    simp only [splitOnceSub, hsw, if_pos]
    rw [← hpt, drop_len_append]

/-- If every occurrence of `pat` in `x ++ pat ++ y` starts at index at least
`x.length`, then the first split is exactly at `x`. -/
theorem splitOnceSub_first {pat y : Str} (x : Str) (hp : pat ≠ [])
    (hx : ∀ u v : Str, x ++ pat ++ y = u ++ pat ++ v → x.length ≤ u.length) :
    splitOnceSub pat (x ++ pat ++ y) = some (x, y) := by
  induction x with
  | nil => simpa using splitOnceSub_at_head pat y hp
  | cons c x' ih =>
    have hnsw : ¬ startsWith pat (c :: (x' ++ pat ++ y)) = true := by
      intro hsw
      rcases (startsWith_iff pat _).1 hsw with ⟨t, ht⟩
      have := hx [] t (by simpa using ht)
      simp at this
    have hrec := ih (fun u v huv => by
      have := hx (c :: u) v (by simp [huv])
      simpa using this)
    show splitOnceSub pat (c :: (x' ++ pat ++ y)) = some (c :: x', y)
    simp only [splitOnceSub]
    rw [if_neg hnsw, hrec]
    rfl

/-- In `x ++ pat ++ y` with `x` free of `'='` and `pat` starting with `'='`,
every occurrence of `pat` starts at index at least `x.length`. -/
theorem first_occurrence_min {pat x y : Str} (hhead : pat.head? = some '=')
    (hx : '=' ∉ x) : ∀ u v : Str, x ++ pat ++ y = u ++ pat ++ v → x.length ≤ u.length := by
  intro u v huv
  by_contra hlt
  push_neg at hlt
  obtain ⟨p, pt, rfl⟩ : ∃ p pt, pat = p :: pt := by
    cases pat with
    | nil => simp at hhead
    | cons p pt => exact ⟨p, pt, rfl⟩
  have hp : p = '=' := by simpa using hhead
  subst hp
  rw [List.append_assoc, List.append_assoc] at huv
  rcases List.append_eq_append_iff.1 huv.symm with ⟨z, hz1, hz2⟩ | ⟨z, hz1, hz2⟩
  · -- x = u ++ z and ('=' :: pt) ++ v = z ++ (('=' :: pt) ++ y)
    cases z with
    | nil =>
      have : x.length = u.length := by simp [hz1]
      omega
    | cons zc zt =>
      injection hz2 with h1 _
      apply hx
      rw [hz1, h1]
      simp
  · -- u = x ++ z, contradicting u.length < x.length
    have : x.length ≤ u.length := by simp [hz1]
    omega

/-- Splitting a string of the shape `x ++ pat ++ y` at a marker `pat`
that begins with `'='`, when `x` contains no `'='`. -/
theorem splitOnceSub_marker {pat : Str} (x y : Str) (hhead : pat.head? = some '=')
    (hx : '=' ∉ x) : splitOnceSub pat (x ++ pat ++ y) = some (x, y) := by
  have hp : pat ≠ [] := by cases pat <;> simp_all
  exact splitOnceSub_first x hp (first_occurrence_min hhead hx)

theorem mem_of_occurs {pat s : Str} {c : Char} (h : Occurs pat s) (hc : c ∈ pat) :
    c ∈ s := by
  rcases h with ⟨a, b, rfl⟩
  simp [hc]

theorem not_occurs_of_eq_free {pat s : Str} (hc : '=' ∈ pat) (hs : '=' ∉ s) :
    ¬ Occurs pat s := fun h => hs (mem_of_occurs h hc)

/-- Occurrence in a concatenation: the occurrence lies in the left part, in
the right part, or straddles the boundary. -/
theorem occurs_append {pat x y : Str} (h : Occurs pat (x ++ y)) :
    Occurs pat x ∨ Occurs pat y ∨
    ∃ k, 0 < k ∧ k < pat.length ∧ (∃ a, x = a ++ pat.take k) ∧
      (∃ b, y = pat.drop k ++ b) := by
  rcases h with ⟨a, b, hab⟩
  rw [List.append_assoc] at hab
  rcases List.append_eq_append_iff.1 hab.symm with ⟨z, hz1, hz2⟩ | ⟨z, hz1, hz2⟩
  · -- x = a ++ z and pat ++ b = z ++ y
    rcases List.append_eq_append_iff.1 hz2.symm with ⟨w, hw1, hw2⟩ | ⟨w, hw1, hw2⟩
    · -- pat = z ++ w and y = w ++ b  (hw1 : pat = z ++ w? direction check below)
      cases w with
      | nil =>
        left
        exact ⟨a, [], by simp [hz1, hw1]⟩
      | cons wc wt =>
        cases z with
        | nil =>
          right; left
          exact ⟨[], b, by simp [hw2, hw1]⟩
        | cons zc zt =>
          right; right
          refine ⟨(zc :: zt).length, by simp, ?_, ⟨a, ?_⟩, ⟨b, ?_⟩⟩
          · rw [hw1]
            simp only [List.length_append, List.length_cons]
            omega
          · rw [hz1, hw1, take_len_append]
          · rw [hw2, hw1, drop_len_append]
    · -- z = pat ++ w and y = ... : occurrence inside x
      left
      exact ⟨a, w, by rw [hz1, hw1, ← List.append_assoc]⟩
  · -- a = x ++ z and y = z ++ (pat ++ b)
    right; left
    exact ⟨z, b, by rw [hz2, List.append_assoc]⟩

theorem occurs_append_right {pat x y : Str} (h : Occurs pat y) : Occurs pat (x ++ y) := by
  rcases h with ⟨a, b, rfl⟩
  exact ⟨x ++ a, b, by simp⟩

/-- Every positive-length initial segment of a marker beginning with `'='`
contains `'='`. -/
theorem eq_mem_take_cons (t : Str) (k : Nat) (hk : 0 < k) : '=' ∈ ('=' :: t).take k := by
  cases k with
  | zero => omega
  | succ n => simp

/-! ## Python whitespace and case helpers -/

/-- The ASCII whitespace class used by Python's `\s` and `str.strip`. -/
def isPySpace (c : Char) : Bool :=
  c == ' ' || c == '\t' || c == '\n' || c == '\x0d' || c == '\x0b' || c == '\x0c'

/-- `str.strip()`: remove leading and trailing whitespace. -/
def pyStrip (s : Str) : Str :=
  ((s.dropWhile isPySpace).reverse.dropWhile isPySpace).reverse

/-- ASCII `str.lower()` on one character. -/
def pyToLower (c : Char) : Char :=
  if 'A' ≤ c ∧ c ≤ 'Z' then Char.ofNat (c.toNat + 32) else c

/-! ## strip_think_tags (src/llm/api.py lines 16-18)

`re.sub(r'<think>.*?</think>\s*', '', content, flags=re.DOTALL)`:
repeatedly locate the leftmost `<think>`, the first `</think>` after it
(non-greedy `.*?`), remove through the closing tag plus the maximal
following whitespace run (greedy `\s*`), and continue scanning the
remainder of the original string.  The scan is implemented with a fuel
argument (the string length) so that the definition is structural; each
removal consumes at least the two tags, so the fuel never runs out. -/

def thinkOpen : Str := ['<', 't', 'h', 'i', 'n', 'k', '>']

def thinkClose : Str := ['<', '/', 't', 'h', 'i', 'n', 'k', '>']

def stripThinkAux : Nat → Str → Str
  | 0, s => s
  | fuel + 1, s =>
    match splitOnceSub thinkOpen s with
    | none => s
    | some (pre, rest) =>
      match splitOnceSub thinkClose rest with
      | none => s
      | some (_, post) => pre ++ stripThinkAux fuel (post.dropWhile isPySpace)

def strip_think_tags (s : Str) : Str := stripThinkAux s.length s

theorem stripThinkAux_no_open {s : Str} (fuel : Nat)
    (h : splitOnceSub thinkOpen s = none) : stripThinkAux fuel s = s := by
  cases fuel with
  | zero => rfl
  | succ n => simp [stripThinkAux, h]

theorem stripThinkAux_no_close {s : Str} (fuel : Nat) {a b : Str}
    (h : splitOnceSub thinkOpen s = some (a, b))
    (h2 : splitOnceSub thinkClose b = none) : stripThinkAux fuel s = s := by
  cases fuel with
  | zero => rfl
  | succ n => simp [stripThinkAux, h, h2]

theorem dropWhile_length_le (p : Char → Bool) :
    ∀ l : Str, (l.dropWhile p).length ≤ l.length := by
  intro l
  induction l with
  | nil => exact Nat.le_refl _
  | cons c cs ih =>
    simp only [List.dropWhile]
    cases hp : p c with
    | true => exact Nat.le_trans ih (Nat.le_succ _)
    | false => exact Nat.le_refl _

theorem stripThinkAux_nil (fuel : Nat) : stripThinkAux fuel [] = [] := by
  cases fuel with
  | zero => rfl
  | succ n => rfl

/-- The fuel argument of `stripThinkAux` is irrelevant once it covers the
string length, so `strip_think_tags` satisfies the intended recursion. -/
theorem stripThinkAux_agree : ∀ (fuel1 fuel2 : Nat) (t : Str),
    t.length ≤ fuel1 → t.length ≤ fuel2 →
    stripThinkAux fuel1 t = stripThinkAux fuel2 t := by
  intro fuel1
  induction fuel1 with
  | zero =>
    intro fuel2 t h1 _
    have ht : t = [] := List.eq_nil_of_length_eq_zero (Nat.le_zero.1 h1)
    subst ht
    rw [stripThinkAux_nil, stripThinkAux_nil]
  | succ n ih =>
    intro fuel2 t h1 h2
    cases fuel2 with
    | zero =>
      have ht : t = [] := List.eq_nil_of_length_eq_zero (Nat.le_zero.1 h2)
      subst ht
      rw [stripThinkAux_nil, stripThinkAux_nil]
    | succ m =>
      simp only [stripThinkAux]
      cases ho : splitOnceSub thinkOpen t with
      | none => rfl
      | some pr =>
        obtain ⟨pre, rest⟩ := pr
        dsimp only
        cases hc : splitOnceSub thinkClose rest with
        | none => rfl
        | some cp =>
          obtain ⟨mid, post⟩ := cp
          dsimp only
          have hto := splitOnceSub_eq_some _ _ _ _ ho
          have htc := splitOnceSub_eq_some _ _ _ _ hc
          have hdw : (post.dropWhile isPySpace).length ≤ post.length :=
            dropWhile_length_le _ _
          have hlt : t.length = pre.length + thinkOpen.length + rest.length := by
            rw [hto]
            simp only [List.length_append]
          have hlr : rest.length = mid.length + thinkClose.length + post.length := by
            rw [htc]
            simp only [List.length_append]
          have hOlen : thinkOpen.length = 7 := rfl
          have hClen : thinkClose.length = 8 := rfl
          congr 1
          exact ih m (post.dropWhile isPySpace) (by omega) (by omega)

/-- `splitOnceSub` finds the leftmost occurrence: the returned prefix
contains no occurrence of the pattern.  Instantiated at `thinkClose` this
is exactly the non-greedy `.*?` semantics. -/
theorem splitOnceSub_left_clean {pat : Str} (hp : pat ≠ []) :
    ∀ {s a b : Str}, splitOnceSub pat s = some (a, b) → ¬ Occurs pat a := by
  intro s
  induction s with
  | nil =>
    intro a b h
    simp only [splitOnceSub] at h
    split at h
    · next hsw =>
      rcases (startsWith_iff pat []).1 hsw with ⟨t, ht⟩
      exact absurd (List.append_eq_nil.1 ht.symm).1 hp
    · exact absurd h (by simp)
  | cons c cs ih =>
    intro a b h
    simp only [splitOnceSub] at h
    split at h
    · next hsw =>
      injection h with h1
      injection h1 with ha _
      subst ha
      rintro ⟨x, y, hxy⟩
      rcases List.append_eq_nil.1 (List.append_eq_nil.1 hxy.symm).1 with ⟨_, hpat⟩
      exact hp hpat
    · next hsw =>
      rw [Option.map_eq_some'] at h
      rcases h with ⟨⟨a', b'⟩, hrec, heq⟩
      simp only at heq
      injection heq with ha hb
      subst ha
      subst hb
      rintro ⟨x, y, hxy⟩
      cases x with
      | nil =>
        apply hsw
        rw [startsWith_iff]
        have hcs := splitOnceSub_eq_some _ _ _ _ hrec
        have hca : c :: a' = pat ++ y := by simpa using hxy
        refine ⟨y ++ pat ++ b', ?_⟩
        have hfull : c :: cs = (c :: a') ++ pat ++ b' := by
          rw [hcs]
          simp
        rw [hfull, hca]
        simp
      | cons x0 x' =>
        injection hxy with _ hxy'
        exact ih hrec ⟨x', y, hxy'⟩

/-- An input on which removing the first `<think>...</think>` span splices
the surrounding text into a new complete span: `<thi<think>x</think>nk>y</think>`. -/
def thinkSpliceInput : Str :=
  ['<', 't', 'h', 'i'] ++ thinkOpen ++ ['x'] ++ thinkClose ++
  ['n', 'k', '>', 'y'] ++ thinkClose

/-- C5, counterexample: `strip_think_tags` is not idempotent.  On
`<thi<think>x</think>nk>y</think>` one application yields
`<think>y</think>` (removal splices a new span together), and a second
application yields the empty string, so applying the function twice does
not equal applying it once. -/
theorem C5_counterexample :
    strip_think_tags thinkSpliceInput = thinkOpen ++ ['y'] ++ thinkClose ∧
    strip_think_tags (strip_think_tags thinkSpliceInput) = [] ∧
    strip_think_tags (strip_think_tags thinkSpliceInput) ≠
      strip_think_tags thinkSpliceInput := by decide

/-- C5 (amended): `strip_think_tags` is total; an input containing no
complete span — no `<think>`, or a `<think>` with no subsequent
`</think>` — is returned unchanged; every input whose leftmost `<think>`
has a matching `</think>` decomposes as
`pre ++ <think> ++ mid ++ </think> ++ post` with no `<think>` in `pre`
(leftmost match) and no `</think>` in `mid` (non-greedy `.*?`, spans may
contain newlines), and stripping removes exactly that span together with
the maximal whitespace run following the closing tag, continuing on the
remainder — so all occurrences are removed; and applying the function
twice equals applying it once whenever the once-stripped result contains
no `<think>` occurrence (in particular whenever removal does not splice
tag fragments into a new span).  Idempotence does not hold in general
(see the counterexample). -/
theorem C5_amended_strip_think_tags :
    (∀ s : Str, splitOnceSub thinkOpen s = none → strip_think_tags s = s) ∧
    (∀ s a b : Str, splitOnceSub thinkOpen s = some (a, b) →
      splitOnceSub thinkClose b = none → strip_think_tags s = s) ∧
    (∀ s : Str, splitOnceSub thinkOpen (strip_think_tags s) = none →
      strip_think_tags (strip_think_tags s) = strip_think_tags s) ∧
    (∀ s pre rest mid post : Str,
      splitOnceSub thinkOpen s = some (pre, rest) →
      splitOnceSub thinkClose rest = some (mid, post) →
      s = pre ++ thinkOpen ++ mid ++ thinkClose ++ post ∧
      ¬ Occurs thinkOpen pre ∧ ¬ Occurs thinkClose mid ∧
      strip_think_tags s = pre ++ strip_think_tags (post.dropWhile isPySpace)) := by
  refine ⟨?_, ?_, ?_, ?_⟩
  · intro s h
    exact stripThinkAux_no_open _ h
  · intro s a b h h2
    exact stripThinkAux_no_close _ h h2
  · intro s h
    exact stripThinkAux_no_open _ h
  · intro s pre rest mid post h1 h2
    have hto := splitOnceSub_eq_some _ _ _ _ h1
    have htc := splitOnceSub_eq_some _ _ _ _ h2
    refine ⟨by rw [hto, htc]; simp,
      splitOnceSub_left_clean (by decide) h1,
      splitOnceSub_left_clean (by decide) h2, ?_⟩
    unfold strip_think_tags
    cases hl : s.length with
    | zero =>
      exfalso
      have hs : s = [] := List.eq_nil_of_length_eq_zero hl
      subst hs
      rw [show splitOnceSub thinkOpen [] = none from rfl] at h1
      exact Option.noConfusion h1
    | succ n =>
      simp only [stripThinkAux, h1, h2]
      congr 1
      apply stripThinkAux_agree
      · have hdw : (post.dropWhile isPySpace).length ≤ post.length :=
          dropWhile_length_le _ _
        have hslen : s.length =
            pre.length + thinkOpen.length +
              (mid.length + thinkClose.length + post.length) := by
          rw [hto, htc]
          simp only [List.length_append]
        have hOlen : thinkOpen.length = 7 := rfl
        have hClen : thinkClose.length = 8 := rfl
        omega
      · exact Nat.le_refl _

/-- A benign tagged input used to witness the amended C5 theorem. -/
def thinkBenignInput : Str := ['a'] ++ thinkOpen ++ ['b'] ++ thinkClose ++ ['c']

/-- Witness for C5: the amended theorem applied at concrete inputs,
including the removal equation on a spanned input. -/
theorem C5_amended_witness :
    (splitOnceSub thinkOpen ['h', 'i'] = none ∧ strip_think_tags ['h', 'i'] = ['h', 'i']) ∧
    (splitOnceSub thinkOpen (['x'] ++ thinkOpen ++ ['y']) = some (['x'], ['y']) ∧
      splitOnceSub thinkClose ['y'] = none ∧
      strip_think_tags (['x'] ++ thinkOpen ++ ['y']) = ['x'] ++ thinkOpen ++ ['y']) ∧
    (splitOnceSub thinkOpen (strip_think_tags thinkBenignInput) = none ∧
      strip_think_tags (strip_think_tags thinkBenignInput) =
        strip_think_tags thinkBenignInput) ∧
    (splitOnceSub thinkOpen thinkBenignInput =
        some (['a'], ['b'] ++ thinkClose ++ ['c']) ∧
      splitOnceSub thinkClose (['b'] ++ thinkClose ++ ['c']) = some (['b'], ['c']) ∧
      (thinkBenignInput = ['a'] ++ thinkOpen ++ ['b'] ++ thinkClose ++ ['c'] ∧
        ¬ Occurs thinkOpen ['a'] ∧ ¬ Occurs thinkClose ['b'] ∧
        strip_think_tags thinkBenignInput =
          ['a'] ++ strip_think_tags (List.dropWhile isPySpace ['c']))) :=
  ⟨⟨by decide, C5_amended_strip_think_tags.1 ['h', 'i'] (by decide)⟩,
   ⟨by decide, by decide,
    C5_amended_strip_think_tags.2.1 (['x'] ++ thinkOpen ++ ['y']) ['x'] ['y']
      (by decide) (by decide)⟩,
   ⟨by decide, C5_amended_strip_think_tags.2.2.1 thinkBenignInput (by decide)⟩,
   ⟨by decide, by decide,
    C5_amended_strip_think_tags.2.2.2 thinkBenignInput ['a']
      (['b'] ++ thinkClose ++ ['c']) ['b'] ['c'] (by decide) (by decide)⟩⟩

/-! ## Input marker parsing (src/llm/parse.py)

`parse_stdin` recognises the `===QUERY===`, `===DRAFT===` and
`===PROBE===` section markers via Python's `in` and `split(marker, 1)`.
`_parse_probe_target` scans the first line of the probe section,
lower-cased, for an `@key` token over the registry keys (`models.ALL_KEYS`,
supplied here as the parameter `allKeys` since configuration loading is an
external collaborator). -/

def markerQuery : Str := ['=', '=', '=', 'Q', 'U', 'E', 'R', 'Y', '=', '=', '=']

def markerDraft : Str := ['=', '=', '=', 'D', 'R', 'A', 'F', 'T', '=', '=', '=']

def markerProbe : Str := ['=', '=', '=', 'P', 'R', 'O', 'B', 'E', '=', '=', '=']

/-- The dictionary returned by `parse_stdin`. -/
structure ParseResult where
  query : Option Str
  draft : Option Str
  probe_model : Option Str
deriving DecidableEq, Repr

/-- Extract the model key from a probe section (e.g. `@gpt`):
first line of the stripped content, lower-cased, scanned for `@key`. -/
def _parse_probe_target (allKeys : List Str) (probe_content : Str) : Option Str :=
  let firstLine := ((pyStrip probe_content).takeWhile (fun c => c != '\n')).map pyToLower
  allKeys.find? (fun k => containsSub ('@' :: k) firstLine)

/-- src/llm/parse.py `parse_stdin`: parse stdin content with section markers. -/
def parse_stdin (allKeys : List Str) (content : Str) : ParseResult :=
  let r1 : ParseResult :=
    match splitOnceSub markerQuery content with
    | some (_, remaining) =>
      match splitOnceSub markerDraft remaining with
      | some (query_part, draft_part) =>
        match splitOnceSub markerProbe draft_part with
        | some (draft2, probe_part) =>
          { query := some (pyStrip query_part), draft := some (pyStrip draft2),
            probe_model := _parse_probe_target allKeys probe_part }
        | none =>
          { query := some (pyStrip query_part), draft := some (pyStrip draft_part),
            probe_model := none }
      | none =>
        match splitOnceSub markerProbe remaining with
        | some (query_part, probe_part) =>
          { query := some (pyStrip query_part), draft := none,
            probe_model := _parse_probe_target allKeys probe_part }
        | none => { query := some (pyStrip remaining), draft := none, probe_model := none }
    | none =>
      match splitOnceSub markerDraft content with
      | some (_, draft_part) =>
        { query := none, draft := some (pyStrip draft_part), probe_model := none }
      | none => { query := none, draft := none, probe_model := none }
  if containsSub markerProbe content = true ∧ r1.probe_model = none then
    match splitOnceSub markerProbe content with
    | some (_, probe_part) =>
      { r1 with probe_model := _parse_probe_target allKeys probe_part }
    | none => r1
  else r1

theorem containsSub_false_iff (pat s : Str) :
    containsSub pat s = false ↔ ¬ Occurs pat s := by
  rw [← splitOnceSub_none_iff]
  unfold containsSub
  cases splitOnceSub pat s <;> simp

theorem no_marker_in_free {pat s : Str} (hc : '=' ∈ pat) (hs : '=' ∉ s) :
    splitOnceSub pat s = none :=
  (splitOnceSub_none_iff pat s).2 (not_occurs_of_eq_free hc hs)

/-- No occurrence of a marker `pat` in `m ++ q` when `pat` does not occur
in `m`, every nonempty suffix of `pat` contains `'='`, and `q` is free of
`'='`. -/
theorem no_occurs_marker_free {pat m q : Str} (hcpat : '=' ∈ pat)
    (hm : ¬ Occurs pat m) (hdrop : ∀ k, k < pat.length → '=' ∈ pat.drop k)
    (hq : '=' ∉ q) : ¬ Occurs pat (m ++ q) := by
  intro h
  rcases occurs_append h with h1 | h2 | ⟨k, _, hklen, _, ⟨b, hb⟩⟩
  · exact hm h1
  · exact not_occurs_of_eq_free hcpat hq h2
  · exact hq (by rw [hb]; exact List.mem_append_left _ (hdrop k hklen))

/-- No occurrence of a marker `pat` in `q ++ y` when `q` is free of `'='`,
every positive-length initial segment of `pat` contains `'='`, and `pat`
does not occur in `y`. -/
theorem no_occurs_free_then {pat q y : Str} (hcpat : '=' ∈ pat)
    (htake : ∀ k, 0 < k → '=' ∈ pat.take k)
    (hq : '=' ∉ q) (hy : ¬ Occurs pat y) : ¬ Occurs pat (q ++ y) := by
  intro h
  rcases occurs_append h with h1 | h2 | ⟨k, hk0, _, ⟨a, ha⟩, _⟩
  · exact not_occurs_of_eq_free hcpat hq h1
  · exact hy h2
  · exact hq (by rw [ha]; exact List.mem_append_right _ (htake k hk0))

theorem take_query_mem : ∀ k, 0 < k → '=' ∈ markerQuery.take k :=
  fun k hk => eq_mem_take_cons _ k hk

theorem take_draft_mem : ∀ k, 0 < k → '=' ∈ markerDraft.take k :=
  fun k hk => eq_mem_take_cons _ k hk

theorem take_probe_mem : ∀ k, 0 < k → '=' ∈ markerProbe.take k :=
  fun k hk => eq_mem_take_cons _ k hk

theorem drop_query_mem : ∀ k, k < markerQuery.length → '=' ∈ markerQuery.drop k := by
  decide

theorem drop_draft_mem : ∀ k, k < markerDraft.length → '=' ∈ markerDraft.drop k := by
  decide

theorem drop_probe_mem : ∀ k, k < markerProbe.length → '=' ∈ markerProbe.drop k := by
  decide

/-- The registry keys of the documented configuration (`gpt`, `gemini`,
`grok`, `qwen`), used for concrete evaluations. -/
def exKeys : List Str :=
  [['g', 'p', 't'], ['g', 'e', 'm', 'i', 'n', 'i'], ['g', 'r', 'o', 'k'],
   ['q', 'w', 'e', 'n']]

/-- An input whose `===DRAFT===` section precedes its `===QUERY===` section. -/
def draftFirstInput : Str := markerDraft ++ ['d'] ++ markerQuery ++ ['q']

/-- C9, counterexample: the markers are not recognised in arbitrary order.
On `===DRAFT===d===QUERY===q` the draft section is lost: `parse_stdin`
returns no draft (the text before `===QUERY===`, including the entire
draft section, is discarded), even though a `===DRAFT===` section is
present. -/
theorem C9_counterexample :
    (parse_stdin exKeys draftFirstInput).draft = none ∧
    (parse_stdin exKeys draftFirstInput).draft ≠ some ['d'] ∧
    (parse_stdin exKeys draftFirstInput).query = some ['q'] := by decide

/-- C9 (amended): `parse_stdin` extracts the sections in the canonical
orders QUERY, QUERY+DRAFT, QUERY+PROBE, QUERY+DRAFT+PROBE (with DRAFT
after QUERY and PROBE last), standalone DRAFT, and standalone PROBE;
absent sections yield none.  Section contents must not contain the
delimiter character `'='`, and for inputs with a PROBE section the first
`===PROBE===` occurrence must be the genuine marker (contents must not
splice with adjacent markers to fabricate an earlier occurrence).  When a
DRAFT section precedes QUERY, its content is not extracted (see the
counterexample), so arbitrary marker order does not hold. -/
theorem C9_amended_parse_stdin (allKeys : List Str) :
    (∀ q : Str, '=' ∉ q →
      parse_stdin allKeys (markerQuery ++ q) = ⟨some (pyStrip q), none, none⟩) ∧
    (∀ q d : Str, '=' ∉ q →
      containsSub markerProbe (markerQuery ++ q ++ markerDraft ++ d) = false →
      parse_stdin allKeys (markerQuery ++ q ++ markerDraft ++ d) =
        ⟨some (pyStrip q), some (pyStrip d), none⟩) ∧
    (∀ q p : Str, '=' ∉ q → '=' ∉ p →
      splitOnceSub markerProbe (markerQuery ++ q ++ markerProbe ++ p) =
        some (markerQuery ++ q, p) →
      parse_stdin allKeys (markerQuery ++ q ++ markerProbe ++ p) =
        ⟨some (pyStrip q), none, _parse_probe_target allKeys p⟩) ∧
    (∀ q d p : Str, '=' ∉ q → '=' ∉ d →
      splitOnceSub markerProbe
          (markerQuery ++ q ++ markerDraft ++ d ++ markerProbe ++ p) =
        some (markerQuery ++ q ++ markerDraft ++ d, p) →
      parse_stdin allKeys (markerQuery ++ q ++ markerDraft ++ d ++ markerProbe ++ p) =
        ⟨some (pyStrip q), some (pyStrip d), _parse_probe_target allKeys p⟩) ∧
    (∀ d : Str, '=' ∉ d →
      parse_stdin allKeys (markerDraft ++ d) = ⟨none, some (pyStrip d), none⟩) ∧
    (∀ p : Str, '=' ∉ p →
      parse_stdin allKeys (markerProbe ++ p) =
        ⟨none, none, _parse_probe_target allKeys p⟩) := by
  refine ⟨?_, ?_, ?_, ?_, ?_, ?_⟩
  · -- (a) QUERY only
    intro q hq
    have h1 : splitOnceSub markerQuery (markerQuery ++ q) = some ([], q) :=
      splitOnceSub_at_head _ _ (by decide)
    have h2 : splitOnceSub markerDraft q = none := no_marker_in_free (by decide) hq
    have h3 : splitOnceSub markerProbe q = none := no_marker_in_free (by decide) hq
    have h4 : containsSub markerProbe (markerQuery ++ q) = false :=
      (containsSub_false_iff _ _).2
        (no_occurs_marker_free (by decide)
          (not_occurs_of_splitOnceSub_none (by decide)) drop_probe_mem hq)
    simp [parse_stdin, h1, h2, h3, h4]
  · -- (b) QUERY then DRAFT
    intro q d hq hnoP
    simp only [List.append_assoc] at hnoP ⊢
    have h1 : splitOnceSub markerQuery (markerQuery ++ (q ++ (markerDraft ++ d))) =
        some ([], q ++ (markerDraft ++ d)) := splitOnceSub_at_head _ _ (by decide)
    have h2 : splitOnceSub markerDraft (q ++ markerDraft ++ d) = some (q, d) :=
      splitOnceSub_marker q d rfl hq
    simp only [List.append_assoc] at h2
    have hocc := (containsSub_false_iff _ _).1 hnoP
    have h3 : splitOnceSub markerProbe d = none :=
      (splitOnceSub_none_iff _ _).2 (fun h =>
        hocc (occurs_append_right (occurs_append_right (occurs_append_right h))))
    simp [parse_stdin, h1, h2, h3, hnoP]
  · -- (c) QUERY then PROBE
    intro q p hq hp hsplit
    simp only [List.append_assoc] at hsplit ⊢
    have h1 : splitOnceSub markerQuery (markerQuery ++ (q ++ (markerProbe ++ p))) =
        some ([], q ++ (markerProbe ++ p)) := splitOnceSub_at_head _ _ (by decide)
    have h2 : splitOnceSub markerDraft (q ++ (markerProbe ++ p)) = none :=
      (splitOnceSub_none_iff _ _).2
        (no_occurs_free_then (by decide) take_draft_mem hq
          (no_occurs_marker_free (by decide)
            (not_occurs_of_splitOnceSub_none (by decide)) drop_draft_mem hp))
    have h3 : splitOnceSub markerProbe (q ++ markerProbe ++ p) = some (q, p) :=
      splitOnceSub_marker q p rfl hq
    simp only [List.append_assoc] at h3
    have h4 : containsSub markerProbe (markerQuery ++ (q ++ (markerProbe ++ p))) =
        true := by
      rw [containsSub, hsplit]; rfl
    by_cases htp : _parse_probe_target allKeys p = none
    · simp [parse_stdin, h1, h2, h3, h4, hsplit, htp]
    · simp [parse_stdin, h1, h2, h3, h4, hsplit, htp]
  · -- (d) QUERY then DRAFT then PROBE
    intro q d p hq hd hsplit
    simp only [List.append_assoc] at hsplit ⊢
    have h1 : splitOnceSub markerQuery
        (markerQuery ++ (q ++ (markerDraft ++ (d ++ (markerProbe ++ p))))) =
        some ([], q ++ (markerDraft ++ (d ++ (markerProbe ++ p)))) :=
      splitOnceSub_at_head _ _ (by decide)
    have h2 : splitOnceSub markerDraft (q ++ markerDraft ++ (d ++ (markerProbe ++ p))) =
        some (q, d ++ (markerProbe ++ p)) :=
      splitOnceSub_marker q (d ++ (markerProbe ++ p)) rfl hq
    simp only [List.append_assoc] at h2
    have h3 : splitOnceSub markerProbe (d ++ markerProbe ++ p) = some (d, p) :=
      splitOnceSub_marker d p rfl hd
    simp only [List.append_assoc] at h3
    have h4 : containsSub markerProbe
        (markerQuery ++ (q ++ (markerDraft ++ (d ++ (markerProbe ++ p))))) = true := by
      rw [containsSub, hsplit]; rfl
    by_cases htp : _parse_probe_target allKeys p = none
    · simp [parse_stdin, h1, h2, h3, h4, hsplit, htp]
    · simp [parse_stdin, h1, h2, h3, h4, hsplit, htp]
  · -- (e) standalone DRAFT
    intro d hd
    have h1 : splitOnceSub markerQuery (markerDraft ++ d) = none :=
      (splitOnceSub_none_iff _ _).2
        (no_occurs_marker_free (by decide)
          (not_occurs_of_splitOnceSub_none (by decide)) drop_query_mem hd)
    have h2 : splitOnceSub markerDraft (markerDraft ++ d) = some ([], d) :=
      splitOnceSub_at_head _ _ (by decide)
    have h4 : containsSub markerProbe (markerDraft ++ d) = false :=
      (containsSub_false_iff _ _).2
        (no_occurs_marker_free (by decide)
          (not_occurs_of_splitOnceSub_none (by decide)) drop_probe_mem hd)
    simp [parse_stdin, h1, h2, h4]
  · -- (f) standalone PROBE
    intro p hp
    have h1 : splitOnceSub markerQuery (markerProbe ++ p) = none :=
      (splitOnceSub_none_iff _ _).2
        (no_occurs_marker_free (by decide)
          (not_occurs_of_splitOnceSub_none (by decide)) drop_query_mem hp)
    have h2 : splitOnceSub markerDraft (markerProbe ++ p) = none :=
      (splitOnceSub_none_iff _ _).2
        (no_occurs_marker_free (by decide)
          (not_occurs_of_splitOnceSub_none (by decide)) drop_draft_mem hp)
    have h3 : splitOnceSub markerProbe (markerProbe ++ p) = some ([], p) :=
      splitOnceSub_at_head _ _ (by decide)
    have h4 : containsSub markerProbe (markerProbe ++ p) = true := by
      rw [containsSub, h3]; rfl
    simp [parse_stdin, h1, h2, h3, h4]

def exQ9 : Str := ['w', 'h', 'y']

def exD9 : Str := ['o', 'k']

def exP9 : Str := ['@', 'g', 'p', 't']

/-- Witness for C9: the amended theorem applied to each canonical marker
combination at concrete inputs. -/
theorem C9_amended_witness :
    (('=' ∉ exQ9) ∧
      parse_stdin exKeys (markerQuery ++ exQ9) = ⟨some (pyStrip exQ9), none, none⟩) ∧
    (containsSub markerProbe (markerQuery ++ exQ9 ++ markerDraft ++ exD9) = false ∧
      parse_stdin exKeys (markerQuery ++ exQ9 ++ markerDraft ++ exD9) =
        ⟨some (pyStrip exQ9), some (pyStrip exD9), none⟩) ∧
    (splitOnceSub markerProbe (markerQuery ++ exQ9 ++ markerProbe ++ exP9) =
        some (markerQuery ++ exQ9, exP9) ∧
      parse_stdin exKeys (markerQuery ++ exQ9 ++ markerProbe ++ exP9) =
        ⟨some (pyStrip exQ9), none, _parse_probe_target exKeys exP9⟩) ∧
    (parse_stdin exKeys
        (markerQuery ++ exQ9 ++ markerDraft ++ exD9 ++ markerProbe ++ exP9) =
      ⟨some (pyStrip exQ9), some (pyStrip exD9), _parse_probe_target exKeys exP9⟩) ∧
    (parse_stdin exKeys (markerDraft ++ exD9) = ⟨none, some (pyStrip exD9), none⟩) ∧
    (parse_stdin exKeys (markerProbe ++ exP9) =
      ⟨none, none, _parse_probe_target exKeys exP9⟩) :=
  ⟨⟨by decide, (C9_amended_parse_stdin exKeys).1 exQ9 (by decide)⟩,
   ⟨by decide, (C9_amended_parse_stdin exKeys).2.1 exQ9 exD9 (by decide) (by decide)⟩,
   ⟨by decide,
    (C9_amended_parse_stdin exKeys).2.2.1 exQ9 exP9 (by decide) (by decide) (by decide)⟩,
   (C9_amended_parse_stdin exKeys).2.2.2.1 exQ9 exD9 exP9 (by decide) (by decide)
     (by decide),
   (C9_amended_parse_stdin exKeys).2.2.2.2.1 exD9 (by decide),
   (C9_amended_parse_stdin exKeys).2.2.2.2.2 exP9 (by decide)⟩

/-! ## Backend call adapter and dispatch engine
(src/llm/api.py `call_llm`, src/llm/caller.py `call`, `_call_single`,
`call_parallel`)

The HTTP transport is the excluded collaborator: one invocation of the
`urlopen` + JSON-parse block is modelled as a `TransportOutcome`, and the
whole adapter call as seen from `call`/`_call_single` as an
`AdapterBehavior` (it either completes with a transport outcome or an
exception escapes it).  `models.resolve`/`models.name` read the external
configuration and are passed as function parameters. -/

/-- The parsed JSON body of a successful HTTP exchange: it has a nonempty
`choices` array, or an `error` key, or neither. -/
inductive JsonBody
  | withChoices (content : Str)
  | withError (err : Str)
  | other
deriving DecidableEq, Repr

/-- Outcome of the transport block inside `call_llm`'s `try`. -/
inductive TransportOutcome
  | ok (body : JsonBody)
  | httpError (code : Nat) (body : Str)
  | urlError (reason : Str)
  | timedOut
  | exn (msg : Str)
deriving DecidableEq, Repr

/-- Behaviour of one adapter invocation as observed by the caller:
either it completes with a transport outcome, or an exception escapes it. -/
inductive AdapterBehavior
  | normal (t : TransportOutcome)
  | raises (msg : Str)
deriving DecidableEq, Repr

/-- A Python result dict; a field is `none` when the key is absent. -/
structure ResultDict where
  success : Bool
  content : Option Str := none
  error : Option Str := none
  model : Option Str := none
  key : Option Str := none
  name : Option Str := none
deriving DecidableEq, Repr

/-- Decimal rendering of a natural number (fuel-based so that it reduces). -/
def natToStrAux : Nat → Nat → Str
  | 0, _ => []
  | fuel + 1, n =>
    if n < 10 then [Char.ofNat (48 + n)]
    else natToStrAux fuel (n / 10) ++ [Char.ofNat (48 + n % 10)]

def natToStr (n : Nat) : Str := natToStrAux (n + 1) n

def unexpectedFormatMsg : Str := "Unexpected response format".toList

def httpErrMsg (code : Nat) (body : Str) : Str :=
  "HTTP ".toList ++ natToStr code ++ ": ".toList ++ body.take 200

def urlErrMsg (reason : Str) : Str := "URL Error: ".toList ++ reason

def timedOutMsg : Str := "Request timed out".toList

/-- src/llm/api.py `call_llm`: call the LLM API and return a response dict,
post-processing successful content with `strip_think_tags`.  All transport
failures are converted to failure dicts. -/
def call_llm (model : Str) (t : TransportOutcome) : ResultDict :=
  match t with
  | .ok (.withChoices c) =>
    { success := true, content := some (strip_think_tags c), model := some model }
  | .ok (.withError e) =>
    { success := false, error := some e, model := some model }
  | .ok .other =>
    { success := false, error := some unexpectedFormatMsg, model := some model }
  | .httpError code body =>
    { success := false, error := some (httpErrMsg code body), model := some model }
  | .urlError r =>
    { success := false, error := some (urlErrMsg r), model := some model }
  | .timedOut =>
    { success := false, error := some timedOutMsg, model := some model }
  | .exn m =>
    { success := false, error := some m, model := some model }

/-- src/llm/caller.py `call`: call a single model; tags the result with the
key and display name, and converts any exception escaping the adapter call
into a failure dict. -/
def call (resolveFn nameFn : Str → Str) (adapterOf : Str → Str → AdapterBehavior)
    (key prompt : Str) : ResultDict :=
  match adapterOf key prompt with
  | .normal t =>
    let r := call_llm (resolveFn key) t
    { r with key := some key, name := some (nameFn key) }
  | .raises e =>
    { success := false, error := some e, key := some key, name := some (nameFn key) }

/-- src/llm/caller.py `_call_single`: like `call` without progress output. -/
def _call_single (resolveFn nameFn : Str → Str)
    (adapterOf : Str → Str → AdapterBehavior) (key prompt : Str) : ResultDict :=
  match adapterOf key prompt with
  | .normal t =>
    let r := call_llm (resolveFn key) t
    { r with key := some key, name := some (nameFn key) }
  | .raises e =>
    { success := false, error := some e, key := some key, name := some (nameFn key) }

def confidenceSuffix : Str :=
  ('\n' :: '\n' :: "---".toList) ++
  ('\n' :: "After answering, rate your confidence (high/medium/low) for each claim.".toList)

def applyConfidence (addConfidence : Bool) (pd : List (Str × Str)) :
    List (Str × Str) :=
  if addConfidence then pd.map (fun kv => (kv.1, kv.2 ++ confidenceSuffix)) else pd

def maxWorkersError : Str := "ValueError: max_workers must be greater than 0".toList

/-- src/llm/caller.py `call_parallel`: call multiple models in parallel.
`prompts` is either one broadcast prompt string or an explicit
key-to-prompt dict (`keys` is ignored in the dict case); `sched` models
the completion order delivered by `as_completed` (a permutation of the
submitted tasks).  The worker pool of size
`min(config.MAX_WORKERS, len(prompt_dict))` is modelled by the guard:
`ThreadPoolExecutor` raises `ValueError` when that size is zero. -/
def call_parallel (resolveFn nameFn : Str → Str) (maxWorkers : Nat)
    (adapterOf : Str → Str → AdapterBehavior) (allKeys : List Str)
    (prompts : Sum Str (List (Str × Str))) (keys : Option (List Str))
    (addConfidence : Bool) (sched : List (Str × Str) → List (Str × Str)) :
    Except Str (List (Str × ResultDict)) :=
  let prompt_dict :=
    match prompts with
    | .inl p => (keys.getD allKeys).map (fun k => (k, p))
    | .inr d => d
  let pd := applyConfidence addConfidence prompt_dict
  if min maxWorkers pd.length = 0 then .error maxWorkersError
  else
    .ok ((sched pd).map
      (fun kv => (kv.1, _call_single resolveFn nameFn adapterOf kv.1 kv.2)))

/-- C7: the single-call operation is total — any exception raised by the
adapter call is caught and converted into a failure result tagged with the
key and display name; the result is either a success carrying content or a
failure carrying an error message, never both. -/
theorem C7_call_total (resolveFn nameFn : Str → Str)
    (adapterOf : Str → Str → AdapterBehavior) (key prompt : Str) :
    (call resolveFn nameFn adapterOf key prompt).key = some key ∧
    (call resolveFn nameFn adapterOf key prompt).name = some (nameFn key) ∧
    (((call resolveFn nameFn adapterOf key prompt).success = true ∧
      (∃ c, (call resolveFn nameFn adapterOf key prompt).content = some c) ∧
      (call resolveFn nameFn adapterOf key prompt).error = none) ∨
     ((call resolveFn nameFn adapterOf key prompt).success = false ∧
      (∃ e, (call resolveFn nameFn adapterOf key prompt).error = some e) ∧
      (call resolveFn nameFn adapterOf key prompt).content = none)) := by
  cases h : adapterOf key prompt with
  | normal t =>
    cases t with
    | ok body => cases body <;> simp [call, call_llm, h]
    | httpError code body => simp [call, call_llm, h]
    | urlError r => simp [call, call_llm, h]
    | timedOut => simp [call, call_llm, h]
    | exn m => simp [call, call_llm, h]
  | raises e => simp [call, h]

/-- C10: `call_parallel` invoked with an empty mapping of prompts raises
(`min(MAX_WORKERS, 0) = 0` is rejected by the `ThreadPoolExecutor`
constructor) instead of returning an empty result mapping. -/
theorem C10_empty_prompts_raises (resolveFn nameFn : Str → Str) (maxWorkers : Nat)
    (adapterOf : Str → Str → AdapterBehavior) (allKeys : List Str)
    (addConfidence : Bool) (sched : List (Str × Str) → List (Str × Str)) :
    call_parallel resolveFn nameFn maxWorkers adapterOf allKeys (.inr []) none
      addConfidence sched = .error maxWorkersError := by
  simp [call_parallel, applyConfidence]

/-- C3: with at least one worker permitted, `call_parallel` over a
non-empty explicit prompt dict returns a result mapping whose keys are
exactly the requested keys (one entry per key), regardless of how many
individual calls fail; each entry is the isolated `_call_single` result
for its own key and prompt, so one call's failure never removes or alters
another key's entry. -/
theorem C3_call_parallel (resolveFn nameFn : Str → Str) (maxWorkers : Nat)
    (adapterOf : Str → Str → AdapterBehavior) (allKeys : List Str)
    (addConfidence : Bool) (pd : List (Str × Str))
    (sched : List (Str × Str) → List (Str × Str))
    (hW : 1 ≤ maxWorkers) (hne : pd ≠ []) (hsched : ∀ l, List.Perm (sched l) l) :
    ∃ l, call_parallel resolveFn nameFn maxWorkers adapterOf allKeys (.inr pd) none
        addConfidence sched = .ok l ∧
      List.Perm (l.map Prod.fst) (pd.map Prod.fst) ∧
      (∀ kr ∈ l, ∃ p, (kr.1, p) ∈ applyConfidence addConfidence pd ∧
        kr.2 = _call_single resolveFn nameFn adapterOf kr.1 p) := by
  have hlen : (applyConfidence addConfidence pd).length = pd.length := by
    unfold applyConfidence
    split <;> simp
  have hfst : (applyConfidence addConfidence pd).map Prod.fst = pd.map Prod.fst := by
    unfold applyConfidence
    split <;> simp
  have hpos : 0 < pd.length := List.length_pos.2 hne
  have hmw : ¬ min maxWorkers (applyConfidence addConfidence pd).length = 0 := by
    rw [hlen]
    omega
  refine ⟨(sched (applyConfidence addConfidence pd)).map
      (fun kv => (kv.1, _call_single resolveFn nameFn adapterOf kv.1 kv.2)), ?_, ?_, ?_⟩
  · simp only [call_parallel]
    rw [if_neg hmw]
  · have hp := (hsched (applyConfidence addConfidence pd)).map Prod.fst
    rw [hfst] at hp
    have heq : ((sched (applyConfidence addConfidence pd)).map
        (fun kv => (kv.1, _call_single resolveFn nameFn adapterOf kv.1 kv.2))).map
          Prod.fst =
        (sched (applyConfidence addConfidence pd)).map Prod.fst := by
      rw [List.map_map]
      rfl
    rw [heq]
    exact hp
  · intro kr hkr
    rcases List.mem_map.1 hkr with ⟨kv, hkv, rfl⟩
    exact ⟨kv.2, (hsched (applyConfidence addConfidence pd)).mem_iff.1 hkv, rfl⟩

def gptKey : Str := ['g', 'p', 't']

def grokKey : Str := ['g', 'r', 'o', 'k']

/-- A concrete adapter where the call for `gpt` raises and the call for
every other key succeeds: exercises failure isolation. -/
def exAdapter : Str → Str → AdapterBehavior := fun k _ =>
  if k = gptKey then .raises (['b', 'o', 'o', 'm']) else .normal (.ok (.withChoices ['h', 'i']))

def exPD : List (Str × Str) := [(gptKey, ['p']), (grokKey, ['p'])]

/-- Witness for C3: two requested keys, one failing call, reversed
completion order; both entries are present. -/
theorem C3_witness :
    (1 ≤ 4) ∧ exPD ≠ [] ∧ (∀ l : List (Str × Str), List.Perm l.reverse l) ∧
    (∃ l, call_parallel id id 4 exAdapter [gptKey, grokKey] (.inr exPD) none
        false (fun l => l.reverse) = .ok l ∧
      List.Perm (l.map Prod.fst) (exPD.map Prod.fst) ∧
      (∀ kr ∈ l, ∃ p, (kr.1, p) ∈ applyConfidence false exPD ∧
        kr.2 = _call_single id id exAdapter kr.1 p)) :=
  ⟨by decide, by decide, fun l => l.reverse_perm,
   C3_call_parallel id id 4 exAdapter [gptKey, grokKey] false exPD
     (fun l => l.reverse) (by decide) (by decide) (fun l => l.reverse_perm)⟩

/-! ## Session & step store (src/llm/session.py)

A session directory is modelled as the metadata file (when present) plus
the step folders; a step folder is the list of its files
(filename, content) in creation order.  Timestamps are opaque strings
supplied as the `now`/`created` parameters. -/

/-- metadata.json contents; each key may be absent. -/
structure Meta where
  created : Option Str
  current_step : Option Nat
  last_updated : Option Str
deriving DecidableEq, Repr

/-- One session directory. -/
structure Session where
  metadata : Option Meta
  steps : List (Nat × List (Str × Str))
deriving DecidableEq, Repr

def lookupStepList : List (Nat × List (Str × Str)) → Nat → Option (List (Str × Str))
  | [], _ => none
  | (m, c) :: rest, n => if m = n then some c else lookupStepList rest n

def setStepList : List (Nat × List (Str × Str)) → Nat → List (Str × Str) →
    List (Nat × List (Str × Str))
  | [], n, c => [(n, c)]
  | (m, d) :: rest, n, c =>
    if m = n then (n, c) :: rest else (m, d) :: setStepList rest n c

def lookupFile : List (Str × Str) → Str → Option Str
  | [], _ => none
  | (f, v) :: rest, n => if f = n then some v else lookupFile rest n

/-- Writing a file: overwrite in place if the name exists, else append. -/
def fsWrite : List (Str × Str) → Str → Str → List (Str × Str)
  | [], n, c => [(n, c)]
  | (f, v) :: rest, n, c =>
    if f = n then (n, c) :: rest else (f, v) :: fsWrite rest n c

def mdExt : Str := ['.', 'm', 'd']

def metaJsonName : Str :=
  ['m', 'e', 't', 'a', 'd', 'a', 't', 'a', '.', 'j', 's', 'o', 'n']

def queryKey : Str := ['q', 'u', 'e', 'r', 'y']

def draftKey : Str := ['d', 'r', 'a', 'f', 't']

/-- src/llm/session.py `new_session`: create a session with step folder 1,
metadata `created`/`current_step = 1`, and mark it current. -/
def new_session (created : Str) : Session :=
  { metadata := some { created := some created, current_step := some 1,
                       last_updated := none },
    steps := [(1, [])] }

/-- src/llm/session.py `get_current_step`: read the persisted metadata,
defaulting to 1 when the file or the key is absent. -/
def get_current_step (st : Session) : Nat :=
  match st.metadata with
  | some m => m.current_step.getD 1
  | none => 1

/-- src/llm/session.py `create_next_step`: create the next step folder
(`exist_ok=True`), update `current_step` and `last_updated` (creating the
metadata file if absent), and return the new number. -/
def create_next_step (now : Str) (st : Session) : Nat × Session :=
  let next := get_current_step st + 1
  let steps1 :=
    match lookupStepList st.steps next with
    | some _ => st.steps
    | none => st.steps ++ [(next, [])]
  let meta0 :=
    match st.metadata with
    | some m => m
    | none => { created := some now, current_step := none, last_updated := none }
  (next,
   { metadata := some { meta0 with current_step := some next, last_updated := some now },
     steps := steps1 })

/-- src/llm/session.py `save_step_data`: create the step folder if needed
and write each non-empty value to `key + ".md"`; empty values are skipped. -/
def save_step_data (st : Session) (step : Nat) (data : List (Str × Str)) : Session :=
  let c0 := (lookupStepList st.steps step).getD []
  let c1 := data.foldl
    (fun acc kv => if kv.2 ≠ [] then fsWrite acc (kv.1 ++ mdExt) kv.2 else acc) c0
  { st with steps := setStepList st.steps step c1 }

def endsWithMd (f : Str) : Bool := startsWith mdExt.reverse f.reverse

def dropMd (f : Str) : Str := f.take (f.length - 3)

/-- src/llm/session.py `load_step_data`: read every `*.md` file of the step
folder into a mapping keyed by the file name without the extension;
empty mapping when the folder is absent. -/
def load_step_data (st : Session) (step : Nat) : List (Str × Str) :=
  match lookupStepList st.steps step with
  | none => []
  | some c =>
    c.filterMap (fun fv =>
      if endsWithMd fv.1 then some (dropMd fv.1, fv.2) else none)

def lexLt : Str → Str → Bool
  | [], [] => false
  | [], _ :: _ => true
  | _ :: _, [] => false
  | a :: as, b :: bs => if a < b then true else if b < a then false else lexLt as bs

def insertLex (x : Str) : List Str → List Str
  | [] => [x]
  | y :: ys => if lexLt y x then y :: insertLex x ys else x :: y :: ys

/-- Python `sorted` on strings: ascending code-point lexicographic order. -/
def sortLex (l : List Str) : List Str := l.foldr insertLex []

/-- Python `str.isdigit` (ASCII digits; false on the empty string). -/
def pyIsDigit (s : Str) : Bool := !s.isEmpty && s.all Char.isDigit

def strToNat (s : Str) : Nat := s.foldl (fun a c => a * 10 + (c.toNat - 48)) 0

/-- src/llm/session.py `get_session_context`: iterate
`sorted(os.listdir(path))` — a plain string sort — keeping the all-digit
directory names, and pair each step number with its loaded data. -/
def get_session_context (st : Session) : List (Nat × List (Str × Str)) :=
  let listing :=
    st.steps.map (fun p => natToStr p.1) ++
    (match st.metadata with
     | some _ => [metaJsonName]
     | none => [])
  (sortLex listing).filterMap (fun item =>
    if pyIsDigit item ∧ (lookupStepList st.steps (strToNat item)).isSome then
      some (strToNat item, load_step_data st (strToNat item))
    else none)

/-! ### C1: create_next_step -/

/-- Iterate `create_next_step`, collecting the returned step numbers. -/
def runNextSteps (now : Str) : Nat → Session → List Nat × Session
  | 0, st => ([], st)
  | n + 1, st =>
    let r := create_next_step now st
    let rest := runNextSteps now n r.2
    (r.1 :: rest.1, rest.2)

theorem get_current_step_create (now : Str) (st : Session) :
    get_current_step (create_next_step now st).2 = get_current_step st + 1 := by
  simp [create_next_step, get_current_step]

theorem runNextSteps_returns (now : Str) : ∀ (n : Nat) (st : Session),
    (runNextSteps now n st).1 =
      (List.range n).map (fun i => get_current_step st + 1 + i) := by
  intro n
  induction n with
  | zero => intro st; simp [runNextSteps]
  | succ m ih =>
    intro st
    simp only [runNextSteps, ih, get_current_step_create]
    rw [List.range_succ_eq_map, List.map_cons, List.map_map]
    congr 1
    apply List.map_congr_left
    intro i _
    simp only [Function.comp_apply]
    omega

theorem lookupStepList_eq_none_iff (l : List (Nat × List (Str × Str))) (n : Nat) :
    lookupStepList l n = none ↔ n ∉ l.map Prod.fst := by
  induction l with
  | nil => simp [lookupStepList]
  | cons p rest ih =>
    cases p with
    | mk m c =>
      by_cases h : m = n
      · subst h
        simp [lookupStepList]
      · simp [lookupStepList, h, ih, Ne.symm h]

theorem runNextSteps_steps_general (now : Str) : ∀ (n : Nat) (st : Session),
    st.steps.map Prod.fst = (List.range (get_current_step st)).map (fun i => i + 1) →
    (runNextSteps now n st).2.steps.map Prod.fst =
      (List.range (get_current_step st + n)).map (fun i => i + 1) := by
  intro n
  induction n with
  | zero => intro st h; simpa using h
  | succ m ih =>
    intro st h
    have hnone : lookupStepList st.steps (get_current_step st + 1) = none := by
      rw [lookupStepList_eq_none_iff, h]
      simp only [List.mem_map, List.mem_range]
      rintro ⟨i, hi, hieq⟩
      omega
    have hsteps1 : (create_next_step now st).2.steps.map Prod.fst =
        (List.range (get_current_step st + 1)).map (fun i => i + 1) := by
      simp only [create_next_step, hnone]
      rw [List.range_succ]
      simp [h]
    have := ih (create_next_step now st).2 (by rw [get_current_step_create]; exact hsteps1)
    rw [get_current_step_create] at this
    simp only [runNextSteps]
    rw [this, show get_current_step st + 1 + m = get_current_step st + (m + 1) from by omega]

/-- C1: `create_next_step` returns the persisted current step plus one and
persists the incremented value, so from a fresh session a sequence of `n`
calls returns exactly `2, 3, ..., n+1` (gap-free, strictly increasing,
nothing skipped or repeated) and leaves exactly the step folders
`1, ..., n+1`; and when the metadata file is absent it still succeeds,
initialising the metadata with the new step number 2. -/
theorem C1_create_next_step (now created : Str) :
    (∀ st : Session, (create_next_step now st).1 = get_current_step st + 1) ∧
    (∀ st : Session,
      get_current_step (create_next_step now st).2 = get_current_step st + 1) ∧
    (∀ steps, (create_next_step now { metadata := none, steps := steps }).1 = 2 ∧
      (create_next_step now { metadata := none, steps := steps }).2.metadata =
        some { created := some now, current_step := some 2, last_updated := some now }) ∧
    (∀ n : Nat, (runNextSteps now n (new_session created)).1 =
      (List.range n).map (fun i => i + 2)) ∧
    (∀ n : Nat, (runNextSteps now n (new_session created)).2.steps.map Prod.fst =
      (List.range (n + 1)).map (fun i => i + 1)) := by
  refine ⟨fun st => rfl, get_current_step_create now, ?_, ?_, ?_⟩
  · intro steps
    exact ⟨rfl, rfl⟩
  · intro n
    rw [runNextSteps_returns]
    apply List.map_congr_left
    intro i _
    have : get_current_step (new_session created) = 1 := rfl
    omega
  · intro n
    have h0 : (new_session created).steps.map Prod.fst =
        (List.range (get_current_step (new_session created))).map (fun i => i + 1) := by
      rfl
    have hrun := runNextSteps_steps_general now n (new_session created) h0
    rw [hrun, show get_current_step (new_session created) + n = n + 1 from by
      have : get_current_step (new_session created) = 1 := rfl
      omega]

/-! ### C2: save_step_data / load_step_data round trip -/

theorem lookupFile_fsWrite (c : List (Str × Str)) (n v f : Str) :
    lookupFile (fsWrite c n v) f = if f = n then some v else lookupFile c f := by
  induction c with
  | nil =>
    by_cases h : f = n
    · subst h
      simp [fsWrite, lookupFile]
    · simp [fsWrite, lookupFile, h, Ne.symm h]
  | cons p rest ih =>
    obtain ⟨g, w⟩ := p
    by_cases hg : g = n
    · subst hg
      by_cases hf : f = g
      · subst hf
        simp [fsWrite, lookupFile]
      · simp [fsWrite, lookupFile, hf, Ne.symm hf]
    · by_cases hf : f = g
      · subst hf
        simp [fsWrite, lookupFile, hg]
      · simp [fsWrite, lookupFile, hg, hf, Ne.symm hf, ih]

theorem fsWrite_absent (c : List (Str × Str)) (n v : Str)
    (h : lookupFile c n = none) : fsWrite c n v = c ++ [(n, v)] := by
  induction c with
  | nil => rfl
  | cons p rest ih =>
    obtain ⟨g, w⟩ := p
    simp only [lookupFile] at h
    by_cases hg : g = n
    · rw [if_pos hg] at h
      exact absurd h (by simp)
    · rw [if_neg hg] at h
      simp [fsWrite, hg, ih h]

theorem lookupFile_append (c1 c2 : List (Str × Str)) (f : Str) :
    lookupFile (c1 ++ c2) f =
      match lookupFile c1 f with
      | some v => some v
      | none => lookupFile c2 f := by
  induction c1 with
  | nil => simp [lookupFile]
  | cons p rest ih =>
    obtain ⟨g, w⟩ := p
    by_cases hf : f = g
    · subst hf
      simp [lookupFile]
    · simp [lookupFile, hf, Ne.symm hf, ih]

theorem append_mdExt_inj {a b : Str} (h : a ++ mdExt = b ++ mdExt) : a = b := by
  have h2 := congrArg List.reverse h
  simp only [List.reverse_append] at h2
  have h3 := congrArg (List.drop mdExt.reverse.length) h2
  rw [drop_len_append, drop_len_append] at h3
  exact List.reverse_injective h3

theorem save_fold_fresh : ∀ (data : List (Str × Str)) (c0 : List (Str × Str)),
    (∀ kv ∈ data, lookupFile c0 (kv.1 ++ mdExt) = none) →
    (data.map Prod.fst).Nodup →
    data.foldl
        (fun acc kv => if kv.2 ≠ [] then fsWrite acc (kv.1 ++ mdExt) kv.2 else acc) c0 =
      c0 ++ (data.filter (fun kv => kv.2 ≠ [])).map (fun kv => (kv.1 ++ mdExt, kv.2)) := by
  intro data
  induction data with
  | nil => intro c0 _ _; simp
  | cons kv rest ih =>
    intro c0 hfresh hnodup
    obtain ⟨k, v⟩ := kv
    simp only [List.map_cons, List.nodup_cons] at hnodup
    by_cases hv : v ≠ []
    · simp only [List.foldl_cons, if_pos hv]
      rw [fsWrite_absent _ _ _ (hfresh (k, v) (by simp))]
      rw [ih (c0 ++ [(k ++ mdExt, v)]) ?_ hnodup.2]
      · rw [List.filter_cons_of_pos (by simpa using hv)]
        simp
      · intro kv' hkv'
        rw [lookupFile_append, hfresh kv' (by simp [hkv'])]
        have hne : kv'.1 ≠ k := by
          intro heq
          exact hnodup.1 (heq ▸ List.mem_map_of_mem Prod.fst hkv')
        simp only [lookupFile]
        rw [if_neg (fun hmd => hne (append_mdExt_inj hmd).symm)]
    · simp only [List.foldl_cons, if_neg hv]
      rw [ih c0 (fun kv' hkv' => hfresh kv' (by simp [hkv'])) hnodup.2]
      rw [List.filter_cons_of_neg (by simpa using hv)]

theorem lookupStepList_setStepList_self (l : List (Nat × List (Str × Str))) (n : Nat)
    (c : List (Str × Str)) : lookupStepList (setStepList l n c) n = some c := by
  induction l with
  | nil => simp [setStepList, lookupStepList]
  | cons p rest ih =>
    obtain ⟨m, d⟩ := p
    by_cases hm : m = n
    · simp [setStepList, hm, lookupStepList]
    · simp [setStepList, hm, lookupStepList, ih]

theorem lookupStepList_setStepList_ne (l : List (Nat × List (Str × Str)))
    (n : Nat) (c : List (Str × Str)) (m : Nat) (h : m ≠ n) :
    lookupStepList (setStepList l n c) m = lookupStepList l m := by
  induction l with
  | nil => simp [setStepList, lookupStepList, h, Ne.symm h]
  | cons p rest ih =>
    obtain ⟨g, d⟩ := p
    by_cases hg : g = n
    · subst hg
      simp [setStepList, lookupStepList, h, Ne.symm h]
    · by_cases hm : g = m
      · subst hm
        simp [setStepList, lookupStepList, hg]
      · simp [setStepList, lookupStepList, hg, Ne.symm hm, ih]

theorem endsWithMd_append (k : Str) : endsWithMd (k ++ mdExt) = true := by
  unfold endsWithMd
  rw [List.reverse_append]
  exact startsWith_append _ _

theorem dropMd_append (k : Str) : dropMd (k ++ mdExt) = k := by
  unfold dropMd
  have hlen : (k ++ mdExt).length - 3 = k.length := by
    simp [mdExt]
  rw [hlen, take_len_append]

/-- C2: on a fresh step, `load_step_data` after `save_step_data` returns
exactly the saved mapping restricted to its non-empty values; in
particular the round trip is the identity when all values are non-empty,
and keys with empty or missing values never appear in the loaded mapping. -/
theorem C2_save_load_round_trip (st : Session) (step : Nat)
    (data : List (Str × Str)) (hnodup : (data.map Prod.fst).Nodup)
    (hfresh : lookupStepList st.steps step = none) :
    load_step_data (save_step_data st step data) step =
      data.filter (fun kv => kv.2 ≠ []) ∧
    ((∀ kv ∈ data, kv.2 ≠ []) →
      load_step_data (save_step_data st step data) step = data) ∧
    (∀ k v, (k, v) ∈ load_step_data (save_step_data st step data) step →
      (k, v) ∈ data ∧ v ≠ []) := by
  have hmain : load_step_data (save_step_data st step data) step =
      data.filter (fun kv => kv.2 ≠ []) := by
    unfold save_step_data load_step_data
    simp only [hfresh, Option.getD_none]
    rw [save_fold_fresh data [] (fun kv _ => rfl) hnodup]
    rw [lookupStepList_setStepList_self]
    simp only [List.nil_append]
    rw [List.filterMap_map]
    have hfun : ((fun fv : Str × Str =>
        if endsWithMd fv.1 then some (dropMd fv.1, fv.2) else none) ∘
        (fun kv : Str × Str => (kv.1 ++ mdExt, kv.2))) = some := by
      funext kv
      simp [Function.comp, endsWithMd_append, dropMd_append]
    rw [hfun, List.filterMap_some]
  refine ⟨hmain, ?_, ?_⟩
  · intro hall
    rw [hmain]
    exact List.filter_eq_self.2 (fun kv hkv => by simpa using hall kv hkv)
  · intro k v hkv
    rw [hmain] at hkv
    have hm := List.mem_filter.1 hkv
    exact ⟨hm.1, by simpa using hm.2⟩

def exStepData : List (Str × Str) := [(queryKey, ['Q', '1']), (draftKey, [])]

/-- Witness for C2: saving a query and an empty draft into the fresh step 2
loads back exactly the query entry. -/
theorem C2_witness :
    ((exStepData.map Prod.fst).Nodup ∧
      lookupStepList (new_session ['t']).steps 2 = none) ∧
    load_step_data (save_step_data (new_session ['t']) 2 exStepData) 2 =
      exStepData.filter (fun kv => kv.2 ≠ []) ∧
    ((∀ kv ∈ exStepData, kv.2 ≠ []) →
      load_step_data (save_step_data (new_session ['t']) 2 exStepData) 2 = exStepData) ∧
    (∀ k v, (k, v) ∈ load_step_data (save_step_data (new_session ['t']) 2 exStepData) 2 →
      (k, v) ∈ exStepData ∧ v ≠ []) :=
  ⟨⟨by decide, by decide⟩,
   C2_save_load_round_trip (new_session ['t']) 2 exStepData (by decide) (by decide)⟩

/-! ### C4: get_session_context ordering -/

/-- The session state reached from `new_session` after nine
`create_next_step` calls: step folders 1 through 10. -/
def exSession10 : Session :=
  { metadata := some { created := some ['t'], current_step := some 10,
                       last_updated := some ['t'] },
    steps := (List.range 10).map (fun i => (i + 1, [])) }

/-- C4, code evaluation: `get_session_context` sorts the directory listing
with a plain string sort (`sorted(os.listdir(path))` without `key=int`),
so for a session holding steps 1..10 — reachable by nine
`create_next_step` calls — it emits step 10 immediately after step 1 and
before step 2, not in ascending numeric order. -/
theorem C4_lexicographic_order :
    (runNextSteps ['t'] 9 (new_session ['t'])).2 = exSession10 ∧
    (get_session_context exSession10).map Prod.fst =
      [1, 10, 2, 3, 4, 5, 6, 7, 8, 9] ∧
    (get_session_context exSession10).map Prod.fst ≠
      [1, 2, 3, 4, 5, 6, 7, 8, 9, 10] := by decide

/-! ## Probe context building (src/cli.py cmd_probe lines 97-108) -/

def ellipsis : Str := ['.', '.', '.']

def colonSp : Str := [':', ' ']

/-- The truncation expression of cmd_probe line 106:
`step_data[key][:800] + "..." if len(step_data[key]) > 800 else step_data[key]`. -/
def probeSnippet (s : Str) : Str :=
  if s.length > 800 then s.take 800 ++ ellipsis else s

def stepHeaderPre : Str := ['-', '-', '-', ' ', 'S', 't', 'e', 'p', ' ']

def stepHeaderPost : Str := [' ', '-', '-', '-']

def queryLinePre : Str := ['Q', ':', ' ']

/-- One step's contribution to the probe context (cmd_probe lines 100-107). -/
def probeContextStep (allKeys : List Str) (nameFn : Str → Str) (stepNum : Nat)
    (sd : List (Str × Str)) : List Str :=
  [stepHeaderPre ++ natToStr stepNum ++ stepHeaderPost] ++
  (match lookupFile sd queryKey with
   | some q => [queryLinePre ++ q]
   | none => []) ++
  allKeys.filterMap (fun k =>
    (lookupFile sd k).map (fun v => nameFn k ++ colonSp ++ probeSnippet v))

def newQHeader : Str :=
  ('\n' :: ['-', '-', '-', ' ', 'N', 'e', 'w', ' ', 'Q', ' ', '-', '-', '-']) ++ ['\n']

/-- The full probe context prompt: per-step blocks then the new question,
joined by blank lines (cmd_probe lines 98-110). -/
def probeContext (allKeys : List Str) (nameFn : Str → Str) (st : Session)
    (newQuery : Str) : Str :=
  List.intercalate ['\n', '\n']
    (((get_session_context st).flatMap
        (fun p => probeContextStep allKeys nameFn p.1 p.2)) ++
     [newQHeader ++ newQuery])

/-- C8: in probe context assembly, a stored response longer than 800
characters is emitted as exactly its first 800 characters followed by the
ellipsis marker; a response of 800 characters or fewer is emitted
verbatim; and each present model response contributes exactly its
labelled, truncated line to the step block. -/
theorem C8_probe_truncation (allKeys : List Str) (nameFn : Str → Str) :
    (∀ s : Str, s.length > 800 → probeSnippet s = s.take 800 ++ ellipsis) ∧
    (∀ s : Str, s.length ≤ 800 → probeSnippet s = s) ∧
    (∀ stepNum sd k v, lookupFile sd k = some v → k ∈ allKeys →
      (nameFn k ++ colonSp ++ probeSnippet v) ∈
        probeContextStep allKeys nameFn stepNum sd) := by
  refine ⟨?_, ?_, ?_⟩
  · intro s h
    simp [probeSnippet, h]
  · intro s h
    simp [probeSnippet]
    omega
  · intro stepNum sd k v hv hk
    unfold probeContextStep
    refine List.mem_append_right _ (List.mem_filterMap.2 ⟨k, hk, ?_⟩)
    rw [hv]
    rfl

/-- Witness for C8: an 801-character response is truncated to 800
characters plus the marker, a short response is verbatim, and the line
appears in the assembled step block. -/
theorem C8_witness :
    ((List.replicate 801 'a').length > 800 ∧
      probeSnippet (List.replicate 801 'a') =
        (List.replicate 801 'a').take 800 ++ ellipsis) ∧
    ((['h', 'i'] : Str).length ≤ 800 ∧ probeSnippet ['h', 'i'] = ['h', 'i']) ∧
    (lookupFile [(gptKey, ['v'])] gptKey = some ['v'] ∧ gptKey ∈ [gptKey] ∧
      (gptKey ++ colonSp ++ probeSnippet ['v']) ∈
        probeContextStep [gptKey] id 1 [(gptKey, ['v'])]) :=
  ⟨⟨by rw [List.length_replicate]; omega,
    (C8_probe_truncation [gptKey] id).1 (List.replicate 801 'a')
      (by rw [List.length_replicate]; omega)⟩,
   ⟨by simp, (C8_probe_truncation [gptKey] id).2.1 ['h', 'i'] (by simp)⟩,
   ⟨by decide, by simp,
    (C8_probe_truncation [gptKey] id).2.2 1 [(gptKey, ['v'])] gptKey ['v']
      (by decide) (by simp)⟩⟩

/-! ## Crossref command core (src/cli.py cmd_crossref lines 122-183) -/

def claudePrefix : Str := ['C', 'l', 'a', 'u', 'd', 'e', ':', ' ']

def origQPrefix : Str := "Original Q: ".toList

def prevAnswerLabel : Str := ('\n' :: "Your previous answer:".toList) ++ ['\n']

def othersLabel : Str := ('\n' :: "Other responses:".toList) ++ ['\n']

def crossrefInstruction : Str :=
  ('\n' :: ['-', '-', '-']) ++
  ('\n' ::
    "Comment on others\x27 responses. Agree/disagree? What insights or errors do you see?".toList)

def crossrefWord : Str := ['C', 'r', 'o', 's', 's', 'r', 'e', 'f']

def crossrefSuffix : Str := ['_', 'c', 'r', 'o', 's', 's', 'r', 'e', 'f']

def crossrefErrNoResponses : Str := "Need at least 1 response. Run council first.".toList

def crossrefErrNoDraft : Str :=
  "No draft found. Crossref requires Claude\x27s draft to compare perspectives.".toList

def joinNL (l : List Str) : Str := List.intercalate ['\n'] l

/-- The "others" list built for target `key` (cmd_crossref lines 155-161):
the draft labelled "Claude" followed by every other model's non-empty
response labelled with its display name; `key`'s own response is excluded
by the `k != key` test. -/
def crossrefOthers (nameFn : Str → Str) (allKeys : List Str) (draft : Str)
    (responses : Str → Option Str) (key : Str) : List Str :=
  (if draft ≠ [] then [claudePrefix ++ draft] else []) ++
  allKeys.filterMap (fun k =>
    match responses k with
    | some v => if k ≠ key ∧ v ≠ [] then some (nameFn k ++ colonSp ++ v) else none
    | none => none)

/-- The prompt parts for target `key` (cmd_crossref lines 163-169):
the original query, `key`'s own previous answer (labelled as such, when
present), the "others" block, and the instruction suffix. -/
def crossrefParts (nameFn : Str → Str) (allKeys : List Str) (query draft : Str)
    (responses : Str → Option Str) (key : Str) : List Str :=
  (if query ≠ [] then [origQPrefix ++ query] else []) ++
  (match responses key with
   | some v => if v ≠ [] then [prevAnswerLabel ++ v] else []
   | none => []) ++
  [othersLabel ++ joinNL (crossrefOthers nameFn allKeys draft responses key)] ++
  [crossrefInstruction]

def crossrefPrompt (nameFn : Str → Str) (allKeys : List Str) (query draft : Str)
    (responses : Str → Option Str) (key : Str) : Str :=
  joinNL (crossrefParts nameFn allKeys query draft responses key)

/-- The current step data after optionally persisting a draft arriving on
stdin (cmd_crossref lines 129-137): `stdinData` is the parsed stdin
(`none` models an attached tty); a non-empty stdin draft is saved into the
current step only when that step holds no draft yet. -/
def crossrefMerge (stdinData : Option ParseResult) (st : Session) :
    Session × List (Str × Str) :=
  let cur := get_current_step st
  let sd0 := load_step_data st cur
  match stdinData with
  | none => (st, sd0)
  | some pdata =>
    match pdata.draft with
    | some d =>
      if d ≠ [] ∧ lookupFile sd0 draftKey = none then
        (save_step_data st cur [(draftKey, d)], sd0 ++ [(draftKey, d)])
      else (st, sd0)
    | none => (st, sd0)

/-- src/cli.py `cmd_crossref`: the state-and-dispatch core.  Fails fast
(before any dispatch) when no response or no draft is available; otherwise
builds the per-key prompts, dispatches them, allocates the next step and
saves the crossref results there. -/
def cmd_crossref (resolveFn nameFn : Str → Str) (maxWorkers : Nat)
    (adapterOf : Str → Str → AdapterBehavior) (allKeys : List Str)
    (sched : List (Str × Str) → List (Str × Str))
    (stdinData : Option ParseResult) (now : Str) (st : Session) :
    Except Str (Session × Nat × List (Str × ResultDict)) :=
  let st1 := (crossrefMerge stdinData st).1
  let sd := (crossrefMerge stdinData st).2
  let query := (lookupFile sd queryKey).getD []
  let draft := (lookupFile sd draftKey).getD []
  let responses : Str → Option Str := fun k => lookupFile sd k
  if ¬ (allKeys.any (fun k => ((responses k).getD []) ≠ [])) ∧ draft = [] then
    .error crossrefErrNoResponses
  else if draft = [] then
    .error crossrefErrNoDraft
  else
    let prompts := allKeys.map (fun key =>
      (key, crossrefPrompt nameFn allKeys query draft responses key))
    match call_parallel resolveFn nameFn maxWorkers adapterOf allKeys (.inr prompts)
        none false sched with
    | .error e => .error e
    | .ok results =>
      let r := create_next_step now st1
      let new_step_data := (queryKey, crossrefWord) ::
        results.filterMap (fun kr =>
          if kr.2.success then some (kr.1 ++ crossrefSuffix, kr.2.content.getD [])
          else none)
      .ok (save_step_data r.2 r.1 new_step_data, r.1, results)

/-! ### Support lemmas for the crossref claim -/

theorem lookupStepList_append (l1 l2 : List (Nat × List (Str × Str))) (n : Nat) :
    lookupStepList (l1 ++ l2) n =
      match lookupStepList l1 n with
      | some c => some c
      | none => lookupStepList l2 n := by
  induction l1 with
  | nil => simp [lookupStepList]
  | cons p rest ih =>
    obtain ⟨m, d⟩ := p
    by_cases hm : m = n
    · subst hm
      simp [lookupStepList]
    · simp [lookupStepList, hm, ih]

theorem endsWithMd_decomp {f : Str} (h : endsWithMd f = true) :
    dropMd f ++ mdExt = f := by
  unfold endsWithMd at h
  rcases (startsWith_iff _ _).1 h with ⟨t, ht⟩
  have hf : f = t.reverse ++ mdExt := by
    have h2 := congrArg List.reverse ht
    simpa [List.reverse_append] using h2
  rw [hf, dropMd_append]

theorem lookupFile_load_none {c : List (Str × Str)} {k : Str}
    (h : lookupFile (c.filterMap (fun fv =>
        if endsWithMd fv.1 then some (dropMd fv.1, fv.2) else none)) k = none) :
    lookupFile c (k ++ mdExt) = none := by
  induction c with
  | nil => rfl
  | cons fv rest ih =>
    obtain ⟨f, v⟩ := fv
    cases hmd : endsWithMd f with
    | true =>
      simp only [List.filterMap_cons, hmd, if_pos] at h
      simp only [lookupFile] at h ⊢
      by_cases hk : dropMd f = k
      · rw [if_pos hk] at h
        exact absurd h (by simp)
      · rw [if_neg hk] at h
        rw [if_neg (fun hf => hk (by rw [hf]; exact dropMd_append k))]
        exact ih h
    | false =>
      simp only [List.filterMap_cons, hmd] at h
      simp only [lookupFile]
      rw [if_neg (fun hf => by rw [hf, endsWithMd_append k] at hmd; exact Bool.noConfusion hmd)]
      exact ih h

theorem get_current_step_save (st : Session) (step : Nat) (data : List (Str × Str)) :
    get_current_step (save_step_data st step data) = get_current_step st := rfl

theorem lookupStepList_save_ne (st : Session) (step : Nat) (data : List (Str × Str))
    (m : Nat) (h : m ≠ step) :
    lookupStepList (save_step_data st step data).steps m = lookupStepList st.steps m := by
  unfold save_step_data
  exact lookupStepList_setStepList_ne _ _ _ _ h

theorem crossrefMerge_current (stdinData : Option ParseResult) (st : Session) :
    get_current_step (crossrefMerge stdinData st).1 = get_current_step st := by
  unfold crossrefMerge
  cases stdinData with
  | none => rfl
  | some pdata =>
    dsimp only
    cases hd : pdata.draft with
    | none => rfl
    | some d =>
      dsimp only
      split
      · exact get_current_step_save st _ _
      · rfl

theorem crossrefMerge_lookup_ne (stdinData : Option ParseResult) (st : Session)
    (m : Nat) (hm : m ≠ get_current_step st) :
    lookupStepList (crossrefMerge stdinData st).1.steps m =
      lookupStepList st.steps m := by
  unfold crossrefMerge
  cases stdinData with
  | none => rfl
  | some pdata =>
    dsimp only
    cases hd : pdata.draft with
    | none => rfl
    | some d =>
      dsimp only
      split
      · exact lookupStepList_save_ne st _ _ m hm
      · rfl

theorem crossrefMerge_preserve (stdinData : Option ParseResult) (st : Session)
    (n : Nat) (c : List (Str × Str)) (f v : Str)
    (hn : lookupStepList st.steps n = some c) (hf : lookupFile c f = some v) :
    ∃ c', lookupStepList (crossrefMerge stdinData st).1.steps n = some c' ∧
      lookupFile c' f = some v := by
  unfold crossrefMerge
  cases stdinData with
  | none => exact ⟨c, hn, hf⟩
  | some pdata =>
    dsimp only
    cases hd : pdata.draft with
    | none => exact ⟨c, hn, hf⟩
    | some d =>
      dsimp only
      split
      · next hcond =>
        by_cases hcur : n = get_current_step st
        · subst hcur
          have hsave : (save_step_data st (get_current_step st) [(draftKey, d)]).steps =
              setStepList st.steps (get_current_step st)
                (fsWrite c (draftKey ++ mdExt) d) := by
            unfold save_step_data
            simp [hn, hcond.1]
          refine ⟨fsWrite c (draftKey ++ mdExt) d, ?_, ?_⟩
          · simp only
            rw [hsave, lookupStepList_setStepList_self]
          · rw [lookupFile_fsWrite]
            by_cases hfd : f = draftKey ++ mdExt
            · exfalso
              have hnone : lookupFile c (draftKey ++ mdExt) = none := by
                apply lookupFile_load_none
                have h2 := hcond.2
                unfold load_step_data at h2
                rw [hn] at h2
                exact h2
              rw [hfd] at hf
              rw [hf] at hnone
              exact Option.noConfusion hnone
            · rw [if_neg hfd]
              exact hf
        · refine ⟨c, ?_, hf⟩
          simp only
          rw [lookupStepList_save_ne st _ _ n hcur]
          exact hn
      · exact ⟨c, hn, hf⟩

theorem create_next_step_preserve (now : Str) (st : Session) (n : Nat)
    (c : List (Str × Str)) (hn : lookupStepList st.steps n = some c) :
    lookupStepList (create_next_step now st).2.steps n = some c := by
  unfold create_next_step
  simp only
  cases hl : lookupStepList st.steps (get_current_step st + 1) with
  | some d => exact hn
  | none =>
    rw [lookupStepList_append, hn]

theorem create_next_step_fresh_container (now : Str) (st : Session)
    (hfresh : lookupStepList st.steps (get_current_step st + 1) = none) :
    lookupStepList (create_next_step now st).2.steps (get_current_step st + 1) =
      some [] := by
  unfold create_next_step
  simp only [hfresh]
  rw [lookupStepList_append, hfresh]
  simp [lookupStepList]

theorem save_fold_names : ∀ (data : List (Str × Str)) (c0 : List (Str × Str)) (f v : Str),
    lookupFile (data.foldl
      (fun acc kv => if kv.2 ≠ [] then fsWrite acc (kv.1 ++ mdExt) kv.2 else acc) c0) f =
      some v →
    lookupFile c0 f = some v ∨ ∃ kv ∈ data, f = kv.1 ++ mdExt := by
  intro data
  induction data with
  | nil =>
    intro c0 f v h
    exact .inl h
  | cons kv rest ih =>
    intro c0 f v h
    simp only [List.foldl_cons] at h
    by_cases hv : kv.2 ≠ []
    · rw [if_pos hv] at h
      rcases ih _ _ _ h with h2 | ⟨kv', hkv', hf⟩
      · rw [lookupFile_fsWrite] at h2
        by_cases hf : f = kv.1 ++ mdExt
        · exact .inr ⟨kv, by simp, hf⟩
        · rw [if_neg hf] at h2
          exact .inl h2
      · exact .inr ⟨kv', by simp [hkv'], hf⟩
    · rw [if_neg hv] at h
      rcases ih _ _ _ h with h2 | ⟨kv', hkv', hf⟩
      · exact .inl h2
      · exact .inr ⟨kv', by simp [hkv'], hf⟩

theorem applyConfidence_false (pd : List (Str × Str)) : applyConfidence false pd = pd :=
  rfl

theorem save_into_fresh_names (st2 : Session) (B : Nat) (nd : List (Str × Str))
    (c' : List (Str × Str)) (hB : lookupStepList st2.steps B = some [])
    (hc' : lookupStepList (save_step_data st2 B nd).steps B = some c')
    (f v : Str) (hfv : lookupFile c' f = some v) :
    ∃ kv ∈ nd, f = kv.1 ++ mdExt := by
  unfold save_step_data at hc'
  rw [lookupStepList_setStepList_self] at hc'
  injection hc' with hc'
  rw [hB] at hc'
  simp only [Option.getD_some] at hc'
  rcases save_fold_names nd [] f v (hc' ▸ hfv) with h | h
  · exact absurd h (by simp [lookupFile])
  · exact h

/-- C6: for every target key the crossref prompt's "other responses"
section contains only the Claude-labelled draft and other keys' non-empty
responses — never the target's own current-step response, which appears
only under its "Your previous answer" label; when the (possibly
stdin-merged) current step holds no draft, `cmd_crossref` fails before
dispatching any backend call (the result is an error and is independent of
the adapter and completion order); and on success the results are saved in
the newly created step `current_step + 1` under artifact names suffixed
`_crossref` (plus the fixed `query` artifact), leaving every artifact of
the pre-existing steps unchanged. -/
theorem C6_crossref (allKeys : List Str) :
    (∀ (nameFn : Str → Str) (draft : Str) (responses : Str → Option Str) (key e : Str),
      e ∈ crossrefOthers nameFn allKeys draft responses key →
      e = claudePrefix ++ draft ∨
      ∃ k v, k ∈ allKeys ∧ k ≠ key ∧ responses k = some v ∧ v ≠ [] ∧
        e = nameFn k ++ colonSp ++ v) ∧
    (∀ (nameFn : Str → Str) (query draft : Str) (responses : Str → Option Str)
        (key v : Str), responses key = some v → v ≠ [] →
      (prevAnswerLabel ++ v) ∈
        crossrefParts nameFn allKeys query draft responses key) ∧
    (∀ (resolveFn nameFn : Str → Str) (maxW : Nat)
        (a₁ a₂ : Str → Str → AdapterBehavior)
        (sched₁ sched₂ : List (Str × Str) → List (Str × Str))
        (stdinData : Option ParseResult) (now : Str) (st : Session),
      (lookupFile (crossrefMerge stdinData st).2 draftKey).getD [] = [] →
      (∃ e, cmd_crossref resolveFn nameFn maxW a₁ allKeys sched₁ stdinData now st =
        .error e) ∧
      cmd_crossref resolveFn nameFn maxW a₁ allKeys sched₁ stdinData now st =
        cmd_crossref resolveFn nameFn maxW a₂ allKeys sched₂ stdinData now st) ∧
    (∀ (resolveFn nameFn : Str → Str) (maxW : Nat)
        (adapterOf : Str → Str → AdapterBehavior)
        (sched : List (Str × Str) → List (Str × Str))
        (stdinData : Option ParseResult) (now : Str) (st st3 : Session)
        (step : Nat) (results : List (Str × ResultDict)),
      (∀ l : List (Str × Str), List.Perm (sched l) l) →
      lookupStepList st.steps (get_current_step st + 1) = none →
      cmd_crossref resolveFn nameFn maxW adapterOf allKeys sched stdinData now st =
        .ok (st3, step, results) →
      step = get_current_step st + 1 ∧
      (∀ n c f v, lookupStepList st.steps n = some c → lookupFile c f = some v →
        ∃ c', lookupStepList st3.steps n = some c' ∧ lookupFile c' f = some v) ∧
      (∀ c', lookupStepList st3.steps step = some c' →
        ∀ f v, lookupFile c' f = some v →
          f = queryKey ++ mdExt ∨
          ∃ k, k ∈ allKeys ∧ f = k ++ crossrefSuffix ++ mdExt)) := by
  refine ⟨?_, ?_, ?_, ?_⟩
  · -- (1) others-exclusion
    intro nameFn draft responses key e he
    unfold crossrefOthers at he
    rcases List.mem_append.1 he with h1 | h2
    · left
      split at h1
      · simpa using h1
      · simp at h1
    · right
      rcases List.mem_filterMap.1 h2 with ⟨k, hk, hke⟩
      cases hr : responses k with
      | none =>
        simp only [hr] at hke
        exact absurd hke (by simp)
      | some v =>
        simp only [hr] at hke
        split at hke
        · next hcond =>
          refine ⟨k, v, hk, hcond.1, hr, hcond.2, ?_⟩
          injection hke with heq
          exact heq.symm
        · exact absurd hke (by simp)
  · -- (1') own response only as labelled previous answer
    intro nameFn query draft responses key v hv hne
    unfold crossrefParts
    refine List.mem_append_left _ (List.mem_append_left _ (List.mem_append_right _ ?_))
    simp [hv, hne]
  · -- (2) fail fast without a draft
    intro resolveFn nameFn maxW a₁ a₂ sched₁ sched₂ stdinData now st hdraft
    constructor
    · simp only [cmd_crossref, hdraft]
      split
      · exact ⟨_, rfl⟩
      · rw [if_pos trivial]
        exact ⟨_, rfl⟩
    · simp only [cmd_crossref, hdraft]
      split
      · rfl
      · rw [if_pos trivial, if_pos trivial]
  · -- (3) results saved into the fresh next step, old artifacts preserved
    intro resolveFn nameFn maxW adapterOf sched stdinData now st st3 step results
      hsched hfresh hok
    simp only [cmd_crossref] at hok
    split at hok
    · exact absurd hok (by simp)
    · next hcond1 =>
      split at hok
      · exact absurd hok (by simp)
      · next hcond2 =>
        split at hok
        · exact absurd hok (by simp)
        · next results' hcp =>
          injection hok with htup
          injection htup with hA h2
          injection h2 with hB hC
          subst hA
          subst hB
          subst hC
          have hstep1 : (create_next_step now (crossrefMerge stdinData st).1).1 =
              get_current_step (crossrefMerge stdinData st).1 + 1 := rfl
          have hstep : (create_next_step now (crossrefMerge stdinData st).1).1 =
              get_current_step st + 1 := by
            rw [hstep1, crossrefMerge_current]
          refine ⟨hstep, ?_, ?_⟩
          · intro n c f v hn hf
            have hne : n ≠ get_current_step st + 1 := by
              intro heq
              rw [heq, hfresh] at hn
              exact Option.noConfusion hn
            obtain ⟨c1, hc1, hf1⟩ := crossrefMerge_preserve stdinData st n c f v hn hf
            have hc2 := create_next_step_preserve now _ n c1 hc1
            refine ⟨c1, ?_, hf1⟩
            rw [lookupStepList_save_ne _ _ _ n (by rw [hstep]; exact hne)]
            exact hc2
          · intro c' hc' f v hfv
            have hfresh1 : lookupStepList (crossrefMerge stdinData st).1.steps
                (get_current_step (crossrefMerge stdinData st).1 + 1) = none := by
              rw [crossrefMerge_current,
                crossrefMerge_lookup_ne stdinData st _ (by omega)]
              exact hfresh
            have hcont := create_next_step_fresh_container now _ hfresh1
            have hB : lookupStepList
                (create_next_step now (crossrefMerge stdinData st).1).2.steps
                (create_next_step now (crossrefMerge stdinData st).1).1 = some [] := by
              rw [hstep1]
              exact hcont
            rcases save_into_fresh_names _ _ _ c' hB hc' f v hfv with ⟨kv, hkv, hfkv⟩
            rcases List.mem_cons.1 hkv with hkv1 | hkv2
            · left
              rw [hfkv, hkv1]
            · right
              rcases List.mem_filterMap.1 hkv2 with ⟨kr, hkr, hg⟩
              split at hg
              · injection hg with hg
                refine ⟨kr.1, ?_, ?_⟩
                · simp only [call_parallel] at hcp
                  split at hcp
                  · exact absurd hcp (by simp)
                  · injection hcp with hres
                    rw [← hres] at hkr
                    rcases List.mem_map.1 hkr with ⟨kv₀, hkv₀, hkreq⟩
                    have hkv₀' := (hsched _).mem_iff.1 hkv₀
                    rw [applyConfidence_false] at hkv₀'
                    rcases List.mem_map.1 hkv₀' with ⟨key₀, hkey₀, hkv₀eq⟩
                    have hkey : kr.1 = key₀ := by
                      rw [← hkreq, ← hkv₀eq]
                    rw [hkey]
                    exact hkey₀
                · rw [hfkv, ← hg]
              · exact absurd hg (by simp)

def hiStr : Str := ['h', 'i']

/-- An adapter on which every call succeeds with content `hi`. -/
def exAdapter6 : Str → Str → AdapterBehavior :=
  fun _ _ => .normal (.ok (.withChoices hiStr))

/-- Step-1 container holding a query, a draft and a gpt response. -/
def exC1 : List (Str × Str) :=
  [(queryKey ++ mdExt, ['Q']), (draftKey ++ mdExt, ['D']), (gptKey ++ mdExt, ['R'])]

def exSession6 : Session :=
  { metadata := some { created := some ['t'], current_step := some 1,
                       last_updated := none },
    steps := [(1, exC1)] }

/-- A session whose only step holds a query but no draft. -/
def exSession6NoDraft : Session :=
  { metadata := some { created := some ['t'], current_step := some 1,
                       last_updated := none },
    steps := [(1, [(queryKey ++ mdExt, ['Q'])])] }

def exResult6 (k : Str) : ResultDict :=
  { success := true, content := some hiStr, error := none, model := some k,
    key := some k, name := some k }

/-- The session state after the crossref run on `exSession6`. -/
def exSt3 : Session :=
  { metadata := some { created := some ['t'], current_step := some 2,
                       last_updated := some ['t'] },
    steps := [(1, exC1),
              (2, [(queryKey ++ mdExt, crossrefWord),
                   (gptKey ++ crossrefSuffix ++ mdExt, hiStr),
                   (grokKey ++ crossrefSuffix ++ mdExt, hiStr)])] }

def exResponses6 : Str → Option Str := fun k => if k = gptKey then some ['R'] else none

/-- Witness for C6: the theorem applied to a concrete crossref run over the
keys gpt and grok — prompt-building exclusion, fail-fast without a draft,
and the success-case step layout. -/
theorem C6_witness :
    ((claudePrefix ++ ['D']) ∈
        crossrefOthers id [gptKey, grokKey] ['D'] exResponses6 grokKey ∧
      ((claudePrefix ++ ['D']) = claudePrefix ++ ['D'] ∨
        ∃ k v, k ∈ [gptKey, grokKey] ∧ k ≠ grokKey ∧ exResponses6 k = some v ∧
          v ≠ [] ∧ claudePrefix ++ ['D'] = id k ++ colonSp ++ v)) ∧
    (exResponses6 gptKey = some ['R'] ∧
      (prevAnswerLabel ++ ['R']) ∈
        crossrefParts id [gptKey, grokKey] ['Q'] ['D'] exResponses6 gptKey) ∧
    ((lookupFile (crossrefMerge none exSession6NoDraft).2 draftKey).getD [] = [] ∧
      (∃ e, cmd_crossref id id 4 exAdapter6 [gptKey, grokKey] id none ['t']
        exSession6NoDraft = .error e)) ∧
    (lookupStepList exSession6.steps (get_current_step exSession6 + 1) = none ∧
      cmd_crossref id id 4 exAdapter6 [gptKey, grokKey] id none ['t'] exSession6 =
        .ok (exSt3, 2, [(gptKey, exResult6 gptKey), (grokKey, exResult6 grokKey)]) ∧
      (2 = get_current_step exSession6 + 1 ∧
       (∀ n c f v, lookupStepList exSession6.steps n = some c →
          lookupFile c f = some v →
          ∃ c', lookupStepList exSt3.steps n = some c' ∧ lookupFile c' f = some v) ∧
       (∀ c', lookupStepList exSt3.steps 2 = some c' →
          ∀ f v, lookupFile c' f = some v →
            f = queryKey ++ mdExt ∨
            ∃ k, k ∈ [gptKey, grokKey] ∧ f = k ++ crossrefSuffix ++ mdExt))) :=
  ⟨⟨by decide,
    (C6_crossref [gptKey, grokKey]).1 id ['D'] exResponses6 grokKey
      (claudePrefix ++ ['D']) (by decide)⟩,
   ⟨by decide,
    (C6_crossref [gptKey, grokKey]).2.1 id ['Q'] ['D'] exResponses6 gptKey ['R']
      (by decide) (by decide)⟩,
   ⟨by decide,
    ((C6_crossref [gptKey, grokKey]).2.2.1 id id 4 exAdapter6 exAdapter6 id id none
      ['t'] exSession6NoDraft (by decide)).1⟩,
   ⟨by decide, by rfl,
    (C6_crossref [gptKey, grokKey]).2.2.2 id id 4 exAdapter6 id none ['t'] exSession6
      exSt3 2 [(gptKey, exResult6 gptKey), (grokKey, exResult6 grokKey)]
      (fun l => List.Perm.refl l) (by decide) (by rfl)⟩⟩

end LlmCall
